import Mathlib

set_option maxRecDepth 8000

/-!
Verification development for a Go LZ4 block codec and frame layer
(`compressBlock`, `decompressBlock`, `Writer`, `Reader`, `CompressStream`,
`DecompressStream`, `WriteFrameHeader`, `ReadFrameHeader`).

Modelling conventions:
* Go byte slices are `List Nat` whose elements are byte values; indexed
  reads `s[i]` become `byteAt s i` (out-of-range reads never happen on the
  paths the source executes; `byteAt` totalises them with 0).
* Go `uint32` arithmetic is `Nat` arithmetic with explicit `% 2 ^ 32`.
* Loops that are not structurally recursive are written with an explicit
  fuel parameter (structural recursion on the fuel); each wrapper passes a
  fuel that is a proved upper bound on the number of iterations of the Go
  loop, so the fuel-exhaustion branch is unreachable on every input the
  wrapper is applied to.
* A Go runtime panic from an out-of-range indexed store is modelled as the
  distinguished error `Err.indexOutOfRange`.
* The destination buffer of `compressBlock` is modelled by its capacity
  `dstLen` together with the list `out` of bytes written so far, so that
  `out.length` is the Go `dstPos`.  Go's `copy` builtin truncates at the
  destination's capacity and never panics; the model appends the full
  slice and keeps `out.length = dstPos`, which agrees with the Go buffer
  on every index `< dstLen` (the bytes beyond `dstLen`, which Go silently
  drops, are never read back: either a subsequent indexed store panics, or
  the function returns a byte count larger than the capacity, as the C5
  analysis below exhibits).
-/

namespace LZ4

/-! ## Constants (source: part_000 lines 9-19, part_001 lines 11-16) -/

def minMatchLength : Nat := 4
def maxMatchLength : Nat := 0xFFFF
def maxOffset : Nat := 0xFFFF
def hashLog : Nat := 16
def hashSize : Nat := 1 <<< hashLog
def hashShift : Nat := 32 - hashLog
def defaultBlockSize : Nat := 4 * 1024 * 1024
def maxBlockSize : Nat := 4 * 1024 * 1024
def magic : Nat := 0x184D2204
def flgByte : Nat := 0b01100000
def bdType : Nat := 0b01110000

/-- The distinct failure outcomes of the modelled code.  Each Go `error`
value gets its own constructor; `indexOutOfRange` models a Go runtime
panic on an out-of-range indexed store; `outOfFuel` is the sentinel of
the fuel-exhaustion branches, proved unreachable where it matters. -/
inductive Err where
  | blockTooLarge
  | corrupted
  | unexpectedEOF
  | eofErr
  | invalidVersionHdr
  | invalidBlockMaxSize
  | invalidVersionRead
  | blocksIndependentErr
  | blocksChecksumErr
  | contentSizeFlagErr
  | dictIDFlagErr
  | contentSizeValErr
  | dictIDValErr
  | indexOutOfRange
  | outOfFuel
  deriving DecidableEq

/-! ## Byte-level helpers -/

/-- Indexed read from a byte slice. -/
def byteAt (s : List Nat) (i : Nat) : Nat := s.getD i 0

/-- `binary.LittleEndian.PutUint32`: the four bytes of `n` (Go truncates
each shifted value with a `byte` cast). -/
def putUint32LE (n : Nat) : List Nat :=
  [n % 256, (n >>> 8) % 256, (n >>> 16) % 256, (n >>> 24) % 256]

/-- `binary.LittleEndian.Uint32` on four bytes. -/
def getUint32LE (b0 b1 b2 b3 : Nat) : Nat :=
  b0 ||| (b1 <<< 8) ||| (b2 <<< 16) ||| (b3 <<< 24)

/-- `binary.LittleEndian.Uint16` on two bytes. -/
def getUint16LE (b0 b1 : Nat) : Nat := b0 ||| (b1 <<< 8)

/-! ## xxHash32

`getHeaderChecksum` calls `xxHash32.New(0)` from the third-party library
`github.com/pierrec/xxHash/xxHash32`, which is not part of this
repository. -/

def xxhPrime1 : Nat := 2654435761
def xxhPrime2 : Nat := 2246822519
def xxhPrime3 : Nat := 3266489917
def xxhPrime4 : Nat := 668265263
def xxhPrime5 : Nat := 374761393

/-- 32-bit rotate left. -/
def rotl32 (x r : Nat) : Nat := ((x <<< r) ||| (x >>> (32 - r))) % 2 ^ 32

/-- One xxHash32 accumulator round. -/
def xxhRound (v w : Nat) : Nat :=
  (rotl32 ((v + w * xxhPrime2) % 2 ^ 32) 13 * xxhPrime1) % 2 ^ 32

/-- Little-endian 32-bit word at offset `i`. -/
def word32At (s : List Nat) (i : Nat) : Nat :=
  getUint32LE (byteAt s i) (byteAt s (i + 1)) (byteAt s (i + 2)) (byteAt s (i + 3))

/-- Modelled from the spec: the 16-byte stripe loop of xxHash32 (the
third-party hash library is not in this repository; the algorithm is the
published xxHash32).  `fuel` bounds the number of stripes; the wrapper
passes `s.length`, an upper bound since each stripe consumes 16 bytes. -/
def xxhStripes (fuel : Nat) (s : List Nat) (v1 v2 v3 v4 : Nat) : Nat × List Nat :=
  match fuel with
  | 0 => ((rotl32 v1 1 + rotl32 v2 7 + rotl32 v3 12 + rotl32 v4 18) % 2 ^ 32, s)
  | fuel + 1 =>
    if 16 ≤ s.length then
      xxhStripes fuel (s.drop 16)
        (xxhRound v1 (word32At s 0)) (xxhRound v2 (word32At s 4))
        (xxhRound v3 (word32At s 8)) (xxhRound v4 (word32At s 12))
    else ((rotl32 v1 1 + rotl32 v2 7 + rotl32 v3 12 + rotl32 v4 18) % 2 ^ 32, s)

/-- Modelled from the spec: the tail loop of xxHash32 over remaining
4-byte words (structural on the list length via fuel). -/
def xxhTail4 (fuel : Nat) (s : List Nat) (h : Nat) : Nat × List Nat :=
  match fuel with
  | 0 => (h, s)
  | fuel + 1 =>
    if 4 ≤ s.length then
      xxhTail4 fuel (s.drop 4)
        ((rotl32 ((h + word32At s 0 * xxhPrime3) % 2 ^ 32) 17 * xxhPrime4) % 2 ^ 32)
    else (h, s)

/-- Modelled from the spec: the final byte loop of xxHash32. -/
def xxhTail1 (s : List Nat) (h : Nat) : Nat :=
  match s with
  | [] => h
  | b :: rest => xxhTail1 rest ((rotl32 ((h + b * xxhPrime5) % 2 ^ 32) 11 * xxhPrime1) % 2 ^ 32)

/-- Modelled from the spec: xxHash32 of a byte sequence at a given seed
(the hash used by `getHeaderChecksum` comes from the external library
`github.com/pierrec/xxHash/xxHash32`, not from this repository's source;
this is the published xxHash32 algorithm). -/
def xxh32 (seed : Nat) (s : List Nat) : Nat :=
  let n := s.length
  let (acc, rest) :=
    if 16 ≤ n then
      xxhStripes n s ((seed + xxhPrime1 + xxhPrime2) % 2 ^ 32)
        ((seed + xxhPrime2) % 2 ^ 32) (seed % 2 ^ 32)
        ((seed + 2 ^ 32 - xxhPrime1 % 2 ^ 32) % 2 ^ 32)
    else ((seed + xxhPrime5) % 2 ^ 32, s)
  let h := (acc + n) % 2 ^ 32
  let (h, rest) := xxhTail4 rest.length rest h
  let h := xxhTail1 rest h
  let h := (h ^^^ (h >>> 15)) % 2 ^ 32
  let h := (h * xxhPrime2) % 2 ^ 32
  let h := (h ^^^ (h >>> 13)) % 2 ^ 32
  let h := (h * xxhPrime3) % 2 ^ 32
  (h ^^^ (h >>> 16)) % 2 ^ 32

/-! ## Frame writing (part_001 lines 18-43) -/

/-- `getHeaderChecksum`: xxHash32 at seed 0 of FLG‖BD, shifted right 8,
masked to a byte. -/
def getHeaderChecksum (frameHeader : List Nat) : Nat :=
  (xxh32 0 frameHeader >>> 8) &&& 0xFF

/-- The 7 bytes emitted by `WriteFrameHeader`. -/
def frameHeaderBytes : List Nat :=
  putUint32LE magic ++ [flgByte, bdType, getHeaderChecksum [flgByte, bdType]]

/-- The 4 bytes emitted by `WriteFrameEndMark`. -/
def endMarkBytes : List Nat := putUint32LE 0

/-! ## Block compression (part_000 lines 43-185) -/

/-- `hashSequence`: multiply by the Knuth constant in `uint32`, shift
right by `hashShift`. -/
def hashSequence (seq : Nat) : Nat := ((seq * 2654435761) % 2 ^ 32) >>> hashShift

/-- The hash table after the reset loop at the top of `compressBlock`:
every entry holds the sentinel `0xFFFFFFFF`. -/
def emptyHashTable : Nat → Nat := fun _ => 0xFFFFFFFF

/-- `hashTable[h] = v`. -/
def htSet (t : Nat → Nat) (h v : Nat) : Nat → Nat :=
  fun x => if x = h then v else t x

/-- The match-extension loop: count equal bytes at `a + k` and `b + k`.
`fuel` is exactly the Go loop bound `maxLen`. -/
def matchLenLoop (src : List Nat) (a b : Nat) : Nat → Nat
  | 0 => 0
  | fuel + 1 =>
    if byteAt src a = byteAt src b then matchLenLoop src (a + 1) (b + 1) fuel + 1 else 0

/-- A bounds-checked store `dst[dstPos] = b` with `dstPos = out.length`:
an out-of-range index is a Go runtime panic. -/
def writeByte (dstLen : Nat) (out : List Nat) (b : Nat) : Except Err (List Nat) :=
  if out.length < dstLen then .ok (out ++ [b]) else .error .indexOutOfRange

/-- The length-extension emission loop of `compressBlock` (`for remaining
>= 255 { dst[dstPos] = 255; ... }; dst[dstPos] = byte(remaining)`), with
its per-store bounds behaviour.  `fuel` bounds the iterations; callers
pass `remaining + 1`, an upper bound since `remaining` drops by 255 each
pass. -/
def emitExt (fuel : Nat) (dstLen : Nat) (out : List Nat) (remaining : Nat) :
    Except Err (List Nat) :=
  match fuel with
  | 0 => .error .outOfFuel
  | fuel + 1 =>
    if 255 ≤ remaining then
      match writeByte dstLen out 255 with
      | .error e => .error e
      | .ok out1 => emitExt fuel dstLen out1 (remaining - 255)
    else writeByte dstLen out remaining

/-- One head-of-loop step of the scan (lines 71-93): hash the 4-byte
sequence at `srcPos`, consult and update the table, and decide whether a
usable match was found.  Returns the updated table and, when the
candidate survives the distance and minimum-length tests, the pair
(offset `srcPos - ref`, match length). -/
def stepMatch (src : List Nat) (srcPos : Nat) (table : Nat → Nat) :
    (Nat → Nat) × Option (Nat × Nat) :=
  let seq := getUint32LE (byteAt src srcPos) (byteAt src (srcPos + 1))
    (byteAt src (srcPos + 2)) (byteAt src (srcPos + 3))
  let h := hashSequence seq &&& (hashSize - 1)
  let ref := table h
  let table1 := htSet table h (srcPos % 2 ^ 32)
  if ref = 0xFFFFFFFF ∨ maxOffset < (srcPos % 2 ^ 32 + (2 ^ 32 - ref)) % 2 ^ 32 then
    (table1, none)
  else
    let maxLen0 := src.length - srcPos
    let maxLen := if maxMatchLength < maxLen0 then maxMatchLength else maxLen0
    let matchLen := matchLenLoop src srcPos ref maxLen
    if matchLen < minMatchLength then (table1, none)
    else (table1, some (srcPos - ref, matchLen))

/-- The byte emission of one match sequence (lines 95-147): token,
literal-length extension, literals, 2-byte offset, match-length
extension, with the Go bounds check before the token and the per-store
panic behaviour of the unchecked extension and offset stores. -/
def emitSeq (dstLen : Nat) (out : List Nat) (src : List Nat)
    (anchor srcPos offset matchLen : Nat) : Except Err (List Nat) :=
  let literalLen := srcPos - anchor
  let token0 := if literalLen < 15 then (literalLen <<< 4) % 256 else 0xF0
  let matchLenCode := matchLen - minMatchLength
  let token := token0 ||| (if matchLenCode < 15 then matchLenCode % 256 else 0x0F)
  if dstLen < out.length + 1 + literalLen + 2 then .error .blockTooLarge
  else
    match writeByte dstLen out token with
    | .error e => .error e
    | .ok out1 =>
      match (if 15 ≤ literalLen then emitExt (literalLen + 1) dstLen out1 (literalLen - 15)
             else .ok out1) with
      | .error e => .error e
      | .ok out2 =>
        -- copy(dst[dstPos:], src[anchor:srcPos]) then dstPos += literalLen
        let out3 := if 0 < literalLen then out2 ++ (src.drop anchor).take literalLen else out2
        match writeByte dstLen out3 (offset % 256) with
        | .error e => .error e
        | .ok out4 =>
          match writeByte dstLen out4 ((offset >>> 8) % 256) with
          | .error e => .error e
          | .ok out5 =>
            if 15 ≤ matchLenCode then emitExt (matchLenCode + 1) dstLen out5 (matchLenCode - 15)
            else .ok out5

/-- The trailing literals-only emission after the scan loop
(lines 153-182). -/
def emitFinal (dstLen : Nat) (out : List Nat) (src : List Nat) (anchor : Nat) :
    Except Err (List Nat) :=
  if anchor < src.length then
    let literalLen := src.length - anchor
    let token := if literalLen < 15 then (literalLen <<< 4) % 256 else 0xF0
    if dstLen < out.length + 1 + literalLen then .error .blockTooLarge
    else
      match writeByte dstLen out token with
      | .error e => .error e
      | .ok out1 =>
        match (if 15 ≤ literalLen then emitExt (literalLen + 1) dstLen out1 (literalLen - 15)
               else .ok out1) with
        | .error e => .error e
        | .ok out2 => .ok (out2 ++ (src.drop anchor).take literalLen)
  else .ok out

/-- The scan loop of `compressBlock` (lines 70-182), including the
trailing literals-only emission after the loop.  State: `srcPos`,
`anchor`, the hash table, and the bytes `out` written to the destination
(`out.length` is the Go `dstPos`; `dstLen` is `len(dst)`).  `fuel`
bounds the iterations; the wrapper passes `src.length + 1`, an upper
bound since `srcPos` strictly increases each pass. -/
def compressLoop (fuel : Nat) (src : List Nat) (dstLen : Nat) (srcPos anchor : Nat)
    (table : Nat → Nat) (out : List Nat) : Except Err (List Nat) :=
  match fuel with
  | 0 => .error .outOfFuel
  | fuel + 1 =>
    if srcPos + minMatchLength ≤ src.length then
      match stepMatch src srcPos table with
      | (table1, none) => compressLoop fuel src dstLen (srcPos + 1) anchor table1 out
      | (table1, some (offset, matchLen)) =>
        match emitSeq dstLen out src anchor srcPos offset matchLen with
        | .error e => .error e
        | .ok out6 =>
          compressLoop fuel src dstLen (srcPos + matchLen) (srcPos + matchLen) table1 out6
    else emitFinal dstLen out src anchor

/-- `compressBlock src dst hashTable`: the Go function resets the table
to the sentinel before scanning, so the model starts from
`emptyHashTable`; the result is the list of bytes written (its length is
the returned `dstPos`). -/
def compressBlock (src : List Nat) (dstLen : Nat) : Except Err (List Nat) :=
  if src.length = 0 then .ok []
  else compressLoop (src.length + 1) src dstLen 0 0 emptyHashTable []

/-! ## Ghost sequence view of the compressor

`seqLoop` follows exactly the control flow of `compressLoop` but records
the emitted sequences abstractly instead of writing bytes; the bridge
lemma below proves `compressBlock` emits precisely the encoding of this
sequence list. -/

/-- One emitted match sequence: literals `src[litPos .. litPos+litLen)`,
then a match at distance `offset` of length `matchLen`. -/
structure MSeq where
  litPos : Nat
  litLen : Nat
  offset : Nat
  matchLen : Nat
  deriving DecidableEq

/-- Ghost counterpart of the scan loop: the match sequences it emits and
the final anchor (the trailing literals cover `src[fin ..)`). -/
def seqLoop (fuel : Nat) (src : List Nat) (srcPos anchor : Nat) (table : Nat → Nat) :
    List MSeq × Nat :=
  match fuel with
  | 0 => ([], anchor)
  | fuel + 1 =>
    if srcPos + minMatchLength ≤ src.length then
      match stepMatch src srcPos table with
      | (table1, none) => seqLoop fuel src (srcPos + 1) anchor table1
      | (table1, some (offset, matchLen)) =>
        let rest := seqLoop fuel src (srcPos + matchLen) (srcPos + matchLen) table1
        (⟨anchor, srcPos - anchor, offset, matchLen⟩ :: rest.1, rest.2)
    else ([], anchor)

/-- The extension bytes for a length remainder `m`: the loop emits `255`
while `m ≥ 255`, then the final byte. -/
def extBytes (fuel : Nat) (m : Nat) : List Nat :=
  match fuel with
  | 0 => []
  | fuel + 1 => if 255 ≤ m then 255 :: extBytes fuel (m - 255) else [m]

/-- The optional literal-length extension after a token. -/
def lenExt (l : Nat) : List Nat := if 15 ≤ l then extBytes (l - 15 + 1) (l - 15) else []

/-- The token byte of a match sequence. -/
def tokenOf (literalLen matchLenCode : Nat) : Nat :=
  (if literalLen < 15 then (literalLen <<< 4) % 256 else 0xF0) |||
    (if matchLenCode < 15 then matchLenCode % 256 else 0x0F)

/-- The byte encoding of one match sequence. -/
def encSeq (src : List Nat) (s : MSeq) : List Nat :=
  tokenOf s.litLen (s.matchLen - minMatchLength) ::
    (lenExt s.litLen ++ (src.drop s.litPos).take s.litLen ++
      [s.offset % 256, (s.offset >>> 8) % 256] ++ lenExt (s.matchLen - minMatchLength))

/-- The byte encoding of the trailing literals-only sequence. -/
def encFinal (src : List Nat) (anchor : Nat) : List Nat :=
  if anchor < src.length then
    (if src.length - anchor < 15 then ((src.length - anchor) <<< 4) % 256 else 0xF0) ::
      (lenExt (src.length - anchor) ++ src.drop anchor)
  else []

/-- The full byte encoding of a ghost compression result. -/
def encodeSeqs (src : List Nat) (p : List MSeq × Nat) : List Nat :=
  (p.1.map (encSeq src)).flatten ++ encFinal src p.2

/-! ## Block decompression (part_000 lines 248-339) -/

/-- The length-extension read loop of `decompressBlock`: add each
continuation byte until one `≠ 255`; `none` is the mid-extension
unexpected-EOF. -/
def readExtLoop (rem : List Nat) (acc : Nat) : Option (Nat × List Nat) :=
  match rem with
  | [] => none
  | b :: r => if b ≠ 255 then some (acc + b, r) else readExtLoop r (acc + b)

/-- The byte-by-byte overlap copy (`for i := 0; i < matchLen; i++ {
dst[dstPos] = dst[ref+i]; dstPos++ }`). -/
def copyOverlap (out : List Nat) (refPos : Nat) : Nat → List Nat
  | 0 => out
  | n + 1 => copyOverlap (out ++ [byteAt out refPos]) (refPos + 1) n

/-- The sequence-decoding loop of `decompressBlock`.  `rem` is the
unconsumed compressed input, `out` the bytes decoded so far
(`out.length` is the Go `dstPos`).  Returns the decoded bytes and the
error, if any, exactly as the Go function returns `(dstPos, err)`.
`fuel` bounds the iterations; the wrapper passes `src.length + 1`, an
upper bound since each sequence consumes at least its token byte. -/
def decLoop (fuel : Nat) (rem out : List Nat) (dstLen : Nat) : List Nat × Option Err :=
  match fuel with
  | 0 => (out, some .outOfFuel)
  | fuel + 1 =>
    match rem with
    | [] => (out, none)
    | token :: rest =>
      if dstLen ≤ out.length then (out, some .blockTooLarge)
      else
        match (if token >>> 4 = 15 then readExtLoop rest (token >>> 4)
               else some (token >>> 4, rest)) with
        | none => (out, some .unexpectedEOF)
        | some (litLen, rest1) =>
          if rest1.length < litLen then (out, some .unexpectedEOF)
          else if dstLen < out.length + litLen then (out, some .blockTooLarge)
          else
            let out1 := out ++ rest1.take litLen
            match rest1.drop litLen with
            | [] => (out1, none)
            | [_] => (out1, some .unexpectedEOF)
            | b0 :: b1 :: rest4 =>
              let offset := getUint16LE b0 b1
              if offset = 0 ∨ out1.length < offset then (out1, some .corrupted)
              else
                match (if token &&& 0x0F = 15 then readExtLoop rest4 (token &&& 0x0F)
                       else some (token &&& 0x0F, rest4)) with
                | none => (out1, some .unexpectedEOF)
                | some (mlc, rest5) =>
                  let matchLen := mlc + minMatchLength
                  if dstLen < out1.length + matchLen then (out1, some .blockTooLarge)
                  else if out1.length < offset then (out1, some .corrupted)
                  else
                    let refPos := out1.length - offset
                    let out2 := if matchLen ≤ offset then
                        out1 ++ (out1.drop refPos).take matchLen
                      else copyOverlap out1 refPos matchLen
                    decLoop fuel rest5 out2 dstLen

/-- `decompressBlock src dst`: decoded bytes (length = the returned
count) and optional error. -/
def decompressBlock (src : List Nat) (dstLen : Nat) : List Nat × Option Err :=
  decLoop (src.length + 1) src [] dstLen

/-! ## Frame header parsing (part_001 lines 45-127) -/

structure DecodedFrameHeader where
  magicNum : Nat
  version : Nat
  blocksIndependentFlag : Bool
  blocksChecksumFlag : Bool
  contentSizeFlag : Bool
  contentChecksumFlag : Bool
  dictIDFlag : Bool
  contentSize : Nat
  dictID : Nat
  blockMaxSize : Nat
  deriving DecidableEq

/-- `io.ReadFull` on a byte-list stream: exactly `n` bytes or `io.EOF`
(nothing available) or `io.ErrUnexpectedEOF` (partial). -/
def readFull (s : List Nat) (n : Nat) : Except Err (List Nat × List Nat) :=
  if n ≤ s.length then .ok (s.take n, s.drop n)
  else if s.length = 0 then .error .eofErr
  else .error .unexpectedEOF

/-- `ReadFrameHeader`: parse the 7 header bytes, validate magic, version
and block-max-size selector, consume the optional content-size and
dict-ID fields.  Returns the decoded header and the rest of the
stream. -/
def readFrameHeader (s : List Nat) : Except Err (DecodedFrameHeader × List Nat) :=
  match readFull s 7 with
  | .error e => .error e
  | .ok (header, s1) =>
    let magicNum := getUint32LE (byteAt header 0) (byteAt header 1) (byteAt header 2)
      (byteAt header 3)
    if magicNum ≠ magic then .error .corrupted
    else
      let flg := byteAt header 4
      let bd := byteAt header 5
      let version := (flg >>> 6) &&& 0x03
      if version ≠ 1 then .error .invalidVersionHdr
      else
        let blocksIndependentFlag := flg &&& 0x20 ≠ 0
        let blocksChecksumFlag := flg &&& 0x10 ≠ 0
        let contentSizeFlag := flg &&& 0x08 ≠ 0
        let contentChecksumFlag := flg &&& 0x04 ≠ 0
        let dictIDFlag := flg &&& 0x01 ≠ 0
        let blockMaxSizeSelector := (bd >>> 4) &&& 0x0F
        match (match blockMaxSizeSelector with
               | 4 => some (64 <<< 10)
               | 5 => some (256 <<< 10)
               | 6 => some (1 <<< 20)
               | 7 => some (4 <<< 20)
               | _ => none) with
        | none => .error .invalidBlockMaxSize
        | some blockMaxSize =>
          match (if contentSizeFlag then
                   match readFull s1 8 with
                   | .error e => .error e
                   | .ok (cs, s2) =>
                     .ok (getUint32LE (byteAt cs 0) (byteAt cs 1) (byteAt cs 2) (byteAt cs 3) +
                       (getUint32LE (byteAt cs 4) (byteAt cs 5) (byteAt cs 6) (byteAt cs 7)
                         <<< 32), s2)
                 else (.ok (0, s1) : Except Err (Nat × List Nat))) with
          | .error e => .error e
          | .ok (contentSize, s2) =>
            match (if dictIDFlag then
                     match readFull s2 4 with
                     | .error e => .error e
                     | .ok (db, s3) =>
                       .ok (getUint32LE (byteAt db 0) (byteAt db 1) (byteAt db 2) (byteAt db 3),
                         s3)
                   else (.ok (0, s2) : Except Err (Nat × List Nat))) with
            | .error e => .error e
            | .ok (dictID, s3) =>
              .ok ({ magicNum := magicNum, version := version,
                     blocksIndependentFlag := blocksIndependentFlag,
                     blocksChecksumFlag := blocksChecksumFlag,
                     contentSizeFlag := contentSizeFlag,
                     contentChecksumFlag := contentChecksumFlag,
                     dictIDFlag := dictIDFlag, contentSize := contentSize,
                     dictID := dictID, blockMaxSize := blockMaxSize }, s3)

/-! ## Reader (part_000 lines 33-41, 239-246, 341-460) -/

/-- The validation cascade at the top of `Reader.Read` (lines 351-372).
Note: `header.ContentChecksumFlag` is never examined by the source. -/
def headerChecks (h : DecodedFrameHeader) : Option Err :=
  if h.version ≠ 1 then some .invalidVersionRead
  else if ¬h.blocksIndependentFlag then some .blocksIndependentErr
  else if h.blocksChecksumFlag then some .blocksChecksumErr
  else if h.contentSizeFlag then some .contentSizeFlagErr
  else if h.dictIDFlag then some .dictIDFlagErr
  else if 0 < h.contentSize then some .contentSizeValErr
  else if 0 < h.dictID then some .dictIDValErr
  else none

/-- Reader state: the unread part of the underlying stream, the
undelivered part of the carry-over (`r.leftover[r.leftoverPos:]`), the
end-mark flag, and the header flag. -/
structure ReaderState where
  src : List Nat
  leftover : List Nat
  eofSeen : Bool
  headerRead : Bool
  deriving DecidableEq

/-- The block-reading loop inside `Reader.Read` (lines 397-457).
Returns (all delivered bytes, remaining stream, parked carry-over,
end-mark flag, error).  `fuel` bounds the iterations; callers pass
`s.length + 1`, an upper bound since each pass consumes at least the
4-byte length word. -/
def readLoop (fuel : Nat) (s : List Nat) (plen totalRead : Nat) (acc : List Nat) :
    List Nat × List Nat × List Nat × Bool × Option Err :=
  match fuel with
  | 0 => (acc, s, [], false, some .outOfFuel)
  | fuel + 1 =>
    if totalRead < plen then
      match readFull s 4 with
      | .error e =>
        if e = .eofErr ∧ 0 < totalRead then (acc, s, [], false, none)
        else (acc, s, [], false, some e)
      | .ok (sizeBuf, s1) =>
        let compressedSize := getUint32LE (byteAt sizeBuf 0) (byteAt sizeBuf 1)
          (byteAt sizeBuf 2) (byteAt sizeBuf 3)
        if compressedSize = 0 then (acc, s1, [], true, none)
        else
          let uncompressed := compressedSize &&& 0x80000000 ≠ 0
          let csize := if uncompressed then compressedSize % 0x80000000 else compressedSize
          if maxBlockSize < csize then (acc, s1, [], false, some .blockTooLarge)
          else
            match readFull s1 csize with
            | .error e => (acc, s1, [], false, some e)
            | .ok (payload, s2) =>
              match (if uncompressed then .ok payload
                     else match decompressBlock payload defaultBlockSize with
                          | (_, some e) => .error e
                          | (d, none) => .ok d : Except Err (List Nat)) with
              | .error e => (acc, s2, [], false, some e)
              | .ok data =>
                let remaining := plen - totalRead
                let toCopy := if remaining < data.length then remaining else data.length
                let acc1 := acc ++ data.take toCopy
                if toCopy < data.length then (acc1, s2, data.drop toCopy, false, none)
                else readLoop fuel s2 plen (totalRead + toCopy) acc1
    else (acc, s, [], false, none)

/-- `Reader.Read` with a destination of length `plen`: returns the
delivered count, the delivered bytes, the new state and the error.  The
loop is entered with an empty carry-over (the drain either empties it or
fills the destination). -/
def readerRead (st : ReaderState) (plen : Nat) : Nat × List Nat × ReaderState × Option Err :=
  if st.eofSeen then (0, [], st, some .eofErr)
  else
    match (if st.headerRead then .ok st.src
           else match readFrameHeader st.src with
                | .error e => .error e
                | .ok (h, s1) =>
                  match headerChecks h with
                  | some e => .error e
                  | none => .ok s1 : Except Err (List Nat)) with
    | .error e => (0, [], st, some e)
    | .ok s1 =>
      let toCopy := if plen < st.leftover.length then plen else st.leftover.length
      let delivered0 := st.leftover.take toCopy
      let leftover1 := st.leftover.drop toCopy
      if plen ≤ toCopy then (toCopy, delivered0, ⟨s1, leftover1, false, true⟩, none)
      else
        match readLoop (s1.length + 1) s1 plen toCopy delivered0 with
        | (acc, s2, leftover2, eof2, err) => (acc.length, acc, ⟨s2, leftover2, eof2, true⟩, err)

/-! ## Streaming endpoints (part_000 lines 187-237, 462-502) -/

/-- The chunking loop of `Writer.Write` (lines 197-222): slice `p` into
pieces of at most `blockSize`, compress each into a worst-case-sized
destination, and emit a 4-byte length word followed by the compressed
payload.  `fuel` bounds the iterations; callers pass `p.length + 1`. -/
def writeBlocksLoop (fuel : Nat) (p : List Nat) : Except Err (List Nat) :=
  match fuel with
  | 0 => .error .outOfFuel
  | fuel + 1 =>
    if 0 < p.length then
      let chunkSize := if p.length < defaultBlockSize then p.length else defaultBlockSize
      let worstCaseSize := chunkSize + chunkSize / 255 + 16
      match compressBlock (p.take chunkSize) worstCaseSize with
      | .error e => .error e
      | .ok compressed =>
        match writeBlocksLoop fuel (p.drop chunkSize) with
        | .error e => .error e
        | .ok rest => .ok (putUint32LE compressed.length ++ compressed ++ rest)
    else .ok []

/-- The 64 KiB read chunks of `CompressStream`'s copy loop.  `fuel`
bounds the iterations; callers pass `l.length + 1`. -/
def chunksOf (fuel : Nat) (n : Nat) (l : List Nat) : List (List Nat) :=
  match fuel with
  | 0 => []
  | fuel + 1 => if 0 < l.length then l.take n :: chunksOf fuel n (l.drop n) else []

/-- `Writer.Write` then `Writer.Close` over the successive `Write`
payloads: the header goes out on the first call (or on `Close` when no
data was written), each call emits its block records, and `Close` emits
the end-mark. -/
def compressStreamLoop : List (List Nat) → Bool → Except Err (List Nat)
  | [], headerWritten =>
    .ok ((if headerWritten then [] else frameHeaderBytes) ++ endMarkBytes)
  | c :: cs, headerWritten =>
    match writeBlocksLoop (c.length + 1) c with
    | .error e => .error e
    | .ok records =>
      match compressStreamLoop cs true with
      | .error e => .error e
      | .ok rest => .ok ((if headerWritten then [] else frameHeaderBytes) ++ records ++ rest)

/-- `CompressStream`: read the input in 64 KiB chunks, `Write` each
nonempty chunk, then `Close`. -/
def compressStream (x : List Nat) : Except Err (List Nat) :=
  compressStreamLoop (chunksOf (x.length + 1) 65536 x) false

/-- The read loop of `DecompressStream`: call `Reader.Read` with a
64 KiB buffer, append what it delivered, stop at `io.EOF`.  `fuel`
bounds the iterations. -/
def decompressStreamLoop : Nat → ReaderState → List Nat → Except Err (List Nat)
  | 0, _, _ => .error .outOfFuel
  | fuel + 1, st, acc =>
    match readerRead st 65536 with
    | (_, data, st1, err) =>
      match err with
      | some e => if e = .eofErr then .ok acc else .error e
      | none => decompressStreamLoop fuel st1 (acc ++ data)

/-- `DecompressStream` on a byte-list stream.  The Go loop is unbounded
(`for {}`); every `Read` call here either fails, sets the end-mark flag,
or consumes at least one block record of at least 5 bytes, so
`s.length + 3` calls always suffice (proved where used). -/
def decompressStream (s : List Nat) : Except Err (List Nat) :=
  decompressStreamLoop (s.length + 3) ⟨s, [], false, false⟩ []

/-! ## Arithmetic and byte-level lemmas -/

theorem lor_disj (a b k : Nat) (h : b < 2 ^ k) : (a <<< k) ||| b = a <<< k + b := by
  apply Nat.eq_of_testBit_eq
  intro i
  rw [Nat.testBit_lor, Nat.testBit_shiftLeft, Nat.shiftLeft_eq]
  rcases Nat.lt_or_ge i k with hi | hi
  · have hk : ¬ (k ≤ i) := Nat.not_le.mpr hi
    simp only [hk, decide_False, Bool.false_and, Bool.false_or]
    rw [Nat.testBit_to_div_mod, Nat.testBit_to_div_mod]
    have h2 : a * 2 ^ k + b = b + (a * 2 ^ (k - i - 1) * 2) * 2 ^ i := by
      have h3 : 2 ^ k = 2 ^ (k - i - 1) * 2 * 2 ^ i := by
        rw [Nat.mul_assoc, ← Nat.pow_succ']
        rw [← Nat.pow_add]
        congr 1
        omega
      rw [h3]; ring
    rw [h2, Nat.add_mul_div_right _ _ (Nat.pos_pow_of_pos i (by norm_num))]
    rw [Nat.add_mul_mod_self_right]
  · have hk : k ≤ i := hi
    simp only [hk, decide_True, Bool.true_and]
    have hb : b.testBit i = false :=
      Nat.testBit_eq_false_of_lt (Nat.lt_of_lt_of_le h (Nat.pow_le_pow_right (by norm_num) hk))
    rw [hb, Bool.or_false]
    rw [Nat.testBit_to_div_mod, Nat.testBit_to_div_mod]
    have h2 : (a * 2 ^ k + b) / 2 ^ i = a / 2 ^ (i - k) := by
      have hsplit : (2 : Nat) ^ i = 2 ^ k * 2 ^ (i - k) := by
        rw [← Nat.pow_add]; congr 1; omega
      rw [hsplit, ← Nat.div_div_eq_div_mul]
      have h4 : (a * 2 ^ k + b) / 2 ^ k = a := by
        rw [Nat.add_comm, Nat.add_mul_div_right _ _ (Nat.pos_pow_of_pos k (by norm_num))]
        rw [Nat.div_eq_of_lt h, Nat.zero_add]
      rw [h4]
    rw [h2]

theorem lor_disj_comm (a b k : Nat) (h : b < 2 ^ k) : b ||| (a <<< k) = a * 2 ^ k + b := by
  rw [Nat.lor_comm, lor_disj a b k h, Nat.shiftLeft_eq]

theorem getUint16LE_eq (b0 b1 : Nat) (h0 : b0 < 256) :
    getUint16LE b0 b1 = b0 + 256 * b1 := by
  unfold getUint16LE
  rw [lor_disj_comm b1 b0 8 h0]
  omega

theorem shiftRight_mod (n k : Nat) : (n >>> k) % 256 = n / 2 ^ k % 256 := by
  rw [Nat.shiftRight_eq_div_pow]

theorem getUint16LE_put (off : Nat) (h : off < 65536) :
    getUint16LE (off % 256) ((off >>> 8) % 256) = off := by
  rw [getUint16LE_eq _ _ (Nat.mod_lt _ (by norm_num)), shiftRight_mod]
  omega

theorem getUint32LE_eq (b0 b1 b2 b3 : Nat) (h0 : b0 < 256) (h1 : b1 < 256) (h2 : b2 < 256) :
    getUint32LE b0 b1 b2 b3 = b0 + 256 * b1 + 65536 * b2 + 16777216 * b3 := by
  unfold getUint32LE
  rw [lor_disj_comm b1 b0 8 h0]
  have e1 : b1 * 2 ^ 8 + b0 ||| b2 <<< 16 = b2 * 2 ^ 16 + (b1 * 2 ^ 8 + b0) := by
    rw [Nat.lor_comm, lor_disj, Nat.shiftLeft_eq]
    norm_num; omega
  rw [e1]
  have e2 : b2 * 2 ^ 16 + (b1 * 2 ^ 8 + b0) ||| b3 <<< 24 =
      b3 * 2 ^ 24 + (b2 * 2 ^ 16 + (b1 * 2 ^ 8 + b0)) := by
    rw [Nat.lor_comm, lor_disj, Nat.shiftLeft_eq]
    norm_num; omega
  rw [e2]
  norm_num; omega

theorem getUint32LE_put (n : Nat) (h : n < 2 ^ 32) :
    getUint32LE (n % 256) ((n >>> 8) % 256) ((n >>> 16) % 256) ((n >>> 24) % 256) = n := by
  rw [getUint32LE_eq _ _ _ _ (Nat.mod_lt _ (by norm_num)) (Nat.mod_lt _ (by norm_num))
    (Nat.mod_lt _ (by norm_num)), shiftRight_mod, shiftRight_mod, shiftRight_mod]
  norm_num
  omega

theorem putUint32LE_getUint32LE (n : Nat) (h : n < 2 ^ 32) :
    getUint32LE (byteAt (putUint32LE n) 0) (byteAt (putUint32LE n) 1)
      (byteAt (putUint32LE n) 2) (byteAt (putUint32LE n) 3) = n := by
  simp only [putUint32LE, byteAt, List.getD]
  simpa using getUint32LE_put n h

theorem putUint32LE_length (n : Nat) : (putUint32LE n).length = 4 := rfl

/-! ## matchLenLoop lemmas -/

theorem matchLenLoop_le (src : List Nat) (a b : Nat) :
    ∀ fuel, matchLenLoop src a b fuel ≤ fuel := by
  intro fuel
  induction fuel generalizing a b with
  | zero => simp [matchLenLoop]
  | succ f ih =>
    simp only [matchLenLoop]
    split
    · exact Nat.succ_le_succ (ih (a + 1) (b + 1))
    · exact Nat.zero_le _

theorem matchLenLoop_spec (src : List Nat) :
    ∀ fuel a b k, k < matchLenLoop src a b fuel → byteAt src (a + k) = byteAt src (b + k) := by
  intro fuel
  induction fuel with
  | zero => intro a b k hk; simp [matchLenLoop] at hk
  | succ f ih =>
    intro a b k hk
    simp only [matchLenLoop] at hk
    split at hk
    · rename_i heq
      match k with
      | 0 => simpa using heq
      | k + 1 =>
        have h2 := ih (a + 1) (b + 1) k (by omega)
        have e1 : a + (k + 1) = a + 1 + k := by omega
        have e2 : b + (k + 1) = b + 1 + k := by omega
        rw [e1, e2]
        exact h2
    · omega

/-! ## extension-byte lemmas -/

theorem extBytes_fuel (m : Nat) : ∀ fuel fuel2, m < fuel → m < fuel2 →
    extBytes fuel m = extBytes fuel2 m := by
  induction m using Nat.strong_induction_on with
  | _ m ih =>
    intro fuel fuel2 h1 h2
    match fuel, fuel2 with
    | f + 1, f2 + 1 =>
      simp only [extBytes]
      split
      · rename_i h255
        rw [ih (m - 255) (by omega) f f2 (by omega) (by omega)]
      · rfl

theorem extBytes_succ (fuel m : Nat) :
    extBytes (fuel + 1) m = if 255 ≤ m then 255 :: extBytes fuel (m - 255) else [m] := rfl

theorem readExtLoop_cons (b : Nat) (r : List Nat) (acc : Nat) :
    readExtLoop (b :: r) acc = if b ≠ 255 then some (acc + b, r) else readExtLoop r (acc + b) :=
  rfl

theorem readExtLoop_extBytes (m : Nat) : ∀ acc rest,
    readExtLoop (extBytes (m + 1) m ++ rest) acc = some (acc + m, rest) := by
  induction m using Nat.strong_induction_on with
  | _ m ih =>
    intro acc rest
    rw [extBytes_succ m m]
    by_cases h255 : 255 ≤ m
    · rw [if_pos h255, extBytes_fuel _ m (m - 255 + 1) (by omega) (by omega), List.cons_append,
        readExtLoop_cons]
      rw [if_neg (by omega)]
      rw [ih (m - 255) (by omega)]
      congr 2
      omega
    · rw [if_neg h255, List.cons_append, List.nil_append, readExtLoop_cons]
      rw [if_pos (by omega)]

theorem extBytes_length (m : Nat) : (extBytes (m + 1) m).length = m / 255 + 1 := by
  induction m using Nat.strong_induction_on with
  | _ m ih =>
    rw [extBytes_succ]
    by_cases h255 : 255 ≤ m
    · rw [if_pos h255, extBytes_fuel _ _ (m - 255 + 1) (by omega) (by omega), List.length_cons]
      rw [ih (m - 255) (by omega)]
      omega
    · rw [if_neg h255]
      simp only [List.length_cons, List.length_nil]
      omega

theorem emitExt_ok (dstLen : Nat) : ∀ fuel m out, m < fuel →
    out.length + (extBytes (m + 1) m).length ≤ dstLen →
    emitExt fuel dstLen out m = .ok (out ++ extBytes (m + 1) m) := by
  intro fuel
  induction fuel with
  | zero => intro m out h1 h2; omega
  | succ f ih =>
    intro m out h1 h2
    have hlen : (extBytes (m + 1) m).length = m / 255 + 1 := extBytes_length m
    by_cases h255 : 255 ≤ m
    · show (if 255 ≤ m then _ else _) = _
      rw [if_pos h255]
      have hw : writeByte dstLen out 255 = .ok (out ++ [255]) := by
        unfold writeByte
        rw [if_pos (by omega)]
      rw [hw]
      show emitExt f dstLen (out ++ [255]) (m - 255) = _
      rw [ih (m - 255) (out ++ [255]) (by omega) (by
        rw [extBytes_length]
        simp only [List.length_append, List.length_cons, List.length_nil]
        omega)]
      rw [extBytes_succ m m, if_pos h255,
        extBytes_fuel (m - 255) m (m - 255 + 1) (by omega) (by omega)]
      simp
    · show (if 255 ≤ m then _ else _) = _
      rw [if_neg h255]
      unfold writeByte
      rw [if_pos (by
        rw [extBytes_succ, if_neg h255] at h2
        simp only [List.length_cons, List.length_nil] at h2
        omega)]
      rw [extBytes_succ, if_neg h255]

end LZ4

namespace LZ4

/-! ## Validity of the emitted sequences -/

/-- `Covers src a seqs fin`: starting from anchor `a`, the match
sequences `seqs` tile `src` up to position `fin` and each match is
backed by byte-for-byte equal earlier data at a distance in
`1 .. maxOffset`.  These are exactly the facts the scan loop guarantees
about what it emits. -/
inductive Covers (src : List Nat) : Nat → List MSeq → Nat → Prop where
  | nil : ∀ a, a ≤ src.length → Covers src a [] a
  | cons : ∀ a (s : MSeq) rest fin,
      s.litPos = a →
      1 ≤ s.offset → s.offset ≤ maxOffset →
      s.offset ≤ a + s.litLen →
      minMatchLength ≤ s.matchLen → s.matchLen ≤ maxMatchLength →
      a + s.litLen + s.matchLen ≤ src.length →
      (∀ k, k < s.matchLen →
        byteAt src (a + s.litLen + k) = byteAt src (a + s.litLen - s.offset + k)) →
      Covers src (a + s.litLen + s.matchLen) rest fin →
      Covers src a (s :: rest) fin

theorem Covers.fin_le {src : List Nat} {a : Nat} {seqs : List MSeq} {fin : Nat}
    (h : Covers src a seqs fin) : a ≤ fin ∧ fin ≤ src.length := by
  induction h with
  | nil a ha => exact ⟨Nat.le_refl a, ha⟩
  | cons a s rest fin _ _ _ _ _ _ _ _ _ ih => exact ⟨by omega, ih.2⟩

/-- The facts `Covers` gives about every member sequence. -/
theorem Covers.mem_facts {src : List Nat} {a : Nat} {seqs : List MSeq} {fin : Nat}
    (h : Covers src a seqs fin) : ∀ s ∈ seqs,
      1 ≤ s.offset ∧ s.offset ≤ maxOffset ∧ s.offset ≤ s.litPos + s.litLen ∧
      minMatchLength ≤ s.matchLen ∧ s.litPos + s.litLen + s.matchLen ≤ src.length := by
  induction h with
  | nil a ha => intro s hs; simp at hs
  | cons a s rest fin hpos h1 h2 h3 h4 h5 h6 h7 h8 ih =>
    intro t ht
    rcases List.mem_cons.mp ht with rfl | ht
    · subst hpos
      exact ⟨h1, h2, h3, h4, h6⟩
    · exact ih t ht

/-- What a successful `stepMatch` guarantees, given the table
invariant: the offset is in `1 .. maxOffset`, it reaches back only
within the block, the match length is in `minMatchLength .. maxLen`,
and the matched bytes are equal. -/
theorem stepMatch_some_facts {src : List Nat} {srcPos : Nat} {table : Nat → Nat}
    {table1 : Nat → Nat} {offset matchLen : Nat}
    (hlen : src.length < 2 ^ 32) (hsp : srcPos ≤ src.length)
    (ht : ∀ hh, table hh ≠ 0xFFFFFFFF → table hh < srcPos)
    (hstep : stepMatch src srcPos table = (table1, some (offset, matchLen))) :
    1 ≤ offset ∧ offset ≤ maxOffset ∧ offset ≤ srcPos ∧
      minMatchLength ≤ matchLen ∧ matchLen ≤ src.length - srcPos ∧
      matchLen ≤ maxMatchLength ∧
      (∀ k, k < matchLen → byteAt src (srcPos + k) = byteAt src (srcPos - offset + k)) := by
  unfold stepMatch at hstep
  set seq := getUint32LE (byteAt src srcPos) (byteAt src (srcPos + 1))
    (byteAt src (srcPos + 2)) (byteAt src (srcPos + 3)) with hseq
  set h := hashSequence seq &&& (hashSize - 1) with hh
  set ref := table h with href
  by_cases hguard : ref = 0xFFFFFFFF ∨ maxOffset < (srcPos % 2 ^ 32 + (2 ^ 32 - ref)) % 2 ^ 32
  · rw [if_pos hguard] at hstep
    exact absurd (congrArg Prod.snd hstep) (by simp)
  · rw [if_neg hguard] at hstep
    push_neg at hguard
    obtain ⟨hsent, hdist⟩ := hguard
    have hrlt : ref < srcPos := ht h hsent
    have hmod : srcPos % 2 ^ 32 = srcPos := Nat.mod_eq_of_lt (by omega)
    have hdd : (srcPos % 2 ^ 32 + (2 ^ 32 - ref)) % 2 ^ 32 = srcPos - ref := by
      rw [hmod]
      have hr32 : ref < 2 ^ 32 := by omega
      have e1 : srcPos + (2 ^ 32 - ref) = 2 ^ 32 + (srcPos - ref) := by omega
      rw [e1, Nat.add_mod_left]
      exact Nat.mod_eq_of_lt (by omega)
    rw [hdd] at hdist
    set maxLen0 := src.length - srcPos with hml0
    set maxLen := if maxMatchLength < maxLen0 then maxMatchLength else maxLen0 with hml
    set m := matchLenLoop src srcPos ref maxLen with hm
    by_cases hmin : m < minMatchLength
    · rw [if_pos hmin] at hstep
      exact absurd (congrArg Prod.snd hstep) (by simp)
    · rw [if_neg hmin] at hstep
      have hoff : offset = srcPos - ref := by
        have := congrArg Prod.snd hstep
        simp at this
        exact this.1.symm
      have hmm : matchLen = m := by
        have := congrArg Prod.snd hstep
        simp at this
        exact this.2.symm
      have hmle : m ≤ maxLen := matchLenLoop_le src srcPos ref maxLen
      have hmaxle : maxLen ≤ maxLen0 := by
        rw [hml]
        split
        · rename_i hcl
          omega
        · omega
      have hmaxle2 : maxLen ≤ maxMatchLength := by
        rw [hml]
        split
        · omega
        · rename_i hcl
          simp only [not_lt] at hcl
          omega
      refine ⟨by omega, by rw [hoff]; omega, by omega, by omega, by omega, by omega, ?_⟩
      intro k hk
      have hb := matchLenLoop_spec src maxLen srcPos ref k (by omega)
      have e2 : srcPos - offset = ref := by omega
      rw [e2]
      exact hb

/-- A `stepMatch` step preserves the C10 table invariant: the updated
table only holds positions `< srcPos + 1`. -/
theorem stepMatch_table {src : List Nat} {srcPos : Nat} {table : Nat → Nat}
    (hlen : src.length < 2 ^ 32) (hsp : srcPos ≤ src.length)
    (ht : ∀ hh, table hh ≠ 0xFFFFFFFF → table hh < srcPos) :
    ∀ hh, (stepMatch src srcPos table).1 hh ≠ 0xFFFFFFFF →
      (stepMatch src srcPos table).1 hh < srcPos + 1 := by
  intro hh hval
  have htab : (stepMatch src srcPos table).1 =
      htSet table (hashSequence (getUint32LE (byteAt src srcPos) (byteAt src (srcPos + 1))
        (byteAt src (srcPos + 2)) (byteAt src (srcPos + 3))) &&& (hashSize - 1))
        (srcPos % 2 ^ 32) := by
    unfold stepMatch
    simp only []
    split
    · rfl
    · split <;> split <;> rfl
  rw [htab] at hval ⊢
  unfold htSet at hval ⊢
  split
  · have : srcPos % 2 ^ 32 = srcPos := Nat.mod_eq_of_lt (by omega)
    omega
  · split at hval
    · omega
    · exact Nat.lt_succ_of_lt (ht hh hval)

/-- Unfolding equation of `seqLoop` at positive fuel. -/
theorem seqLoop_succ (f : Nat) (src : List Nat) (srcPos anchor : Nat) (table : Nat → Nat) :
    seqLoop (f + 1) src srcPos anchor table =
      if srcPos + minMatchLength ≤ src.length then
        match stepMatch src srcPos table with
        | (table1, none) => seqLoop f src (srcPos + 1) anchor table1
        | (table1, some (offset, matchLen)) =>
          let rest := seqLoop f src (srcPos + matchLen) (srcPos + matchLen) table1
          (⟨anchor, srcPos - anchor, offset, matchLen⟩ :: rest.1, rest.2)
      else ([], anchor) := rfl

/-- The scan loop only emits valid sequences (the inductive heart of
C10 and of the round-trip): from any state satisfying the table
invariant, the ghost loop's output covers `src` from `anchor` with
in-range, byte-verified matches. -/
theorem seqLoop_covers (src : List Nat) : ∀ fuel srcPos anchor table,
    src.length < 2 ^ 32 →
    anchor ≤ srcPos → srcPos ≤ src.length →
    (∀ hh, table hh ≠ 0xFFFFFFFF → table hh < srcPos) →
    src.length - srcPos < fuel →
    Covers src anchor (seqLoop fuel src srcPos anchor table).1
      (seqLoop fuel src srcPos anchor table).2 := by
  intro fuel
  induction fuel with
  | zero => intro srcPos anchor table h32 ha hsp ht hfuel; omega
  | succ f ih =>
    intro srcPos anchor table h32 ha hsp ht hfuel
    rw [seqLoop_succ]
    by_cases hcond : srcPos + minMatchLength ≤ src.length
    · rw [if_pos hcond]
      have hcond4 : srcPos + 4 ≤ src.length := hcond
      rcases hstep : stepMatch src srcPos table with ⟨table1, mOpt⟩
      have htab1 : ∀ hh, table1 hh ≠ 0xFFFFFFFF → table1 hh < srcPos + 1 := by
        intro hh
        have h9 := stepMatch_table h32 hsp ht hh
        rw [hstep] at h9
        exact h9
      cases mOpt with
      | none =>
        exact ih (srcPos + 1) anchor table1 h32 (by omega) (by omega) htab1 (by omega)
      | some om =>
        rcases om with ⟨offset, matchLen⟩
        obtain ⟨h1, h2, h3, h4, h5, h6, h7⟩ := stepMatch_some_facts h32 hsp ht hstep
        have h4n : 4 ≤ matchLen := h4
        have hrest := ih (srcPos + matchLen) (srcPos + matchLen) table1 h32 (Nat.le_refl _)
          (by omega) (by intro hh hv; exact Nat.lt_of_lt_of_le (htab1 hh hv) (by omega))
          (by omega)
        have hanch : anchor + (srcPos - anchor) = srcPos := by omega
        show Covers src anchor
          (⟨anchor, srcPos - anchor, offset, matchLen⟩ ::
            (seqLoop f src (srcPos + matchLen) (srcPos + matchLen) table1).1)
          ((seqLoop f src (srcPos + matchLen) (srcPos + matchLen) table1).2)
        refine Covers.cons anchor ⟨anchor, srcPos - anchor, offset, matchLen⟩ _ _ rfl h1 h2
          ?_ h4 h6 ?_ ?_ ?_
        · simp only
          omega
        · simp only
          omega
        · intro k hk
          simp only
          rw [hanch]
          exact h7 k hk
        · simp only
          rw [hanch]
          exact hrest
    · rw [if_neg hcond]
      exact Covers.nil anchor (by omega)

end LZ4

namespace LZ4

/-! ## Size bound of the encoding -/

theorem stepMatch_some_basic {src : List Nat} {srcPos : Nat} {table table1 : Nat → Nat}
    {offset matchLen : Nat}
    (hstep : stepMatch src srcPos table = (table1, some (offset, matchLen))) :
    4 ≤ matchLen ∧ matchLen ≤ src.length - srcPos := by
  unfold stepMatch at hstep
  set seq := getUint32LE (byteAt src srcPos) (byteAt src (srcPos + 1))
    (byteAt src (srcPos + 2)) (byteAt src (srcPos + 3)) with hseq
  set h := hashSequence seq &&& (hashSize - 1) with hh
  set ref := table h with href
  by_cases hguard : ref = 0xFFFFFFFF ∨ maxOffset < (srcPos % 2 ^ 32 + (2 ^ 32 - ref)) % 2 ^ 32
  · rw [if_pos hguard] at hstep
    exact absurd (congrArg Prod.snd hstep) (by simp)
  · rw [if_neg hguard] at hstep
    set maxLen0 := src.length - srcPos with hml0
    set maxLen := if maxMatchLength < maxLen0 then maxMatchLength else maxLen0 with hml
    set m := matchLenLoop src srcPos ref maxLen with hm
    by_cases hmin : m < minMatchLength
    · rw [if_pos hmin] at hstep
      exact absurd (congrArg Prod.snd hstep) (by simp)
    · rw [if_neg hmin] at hstep
      have hmm : matchLen = m := by
        have h9 := congrArg Prod.snd hstep
        simp at h9
        exact h9.2.symm
      have hle : m ≤ maxLen := matchLenLoop_le src srcPos ref maxLen
      have hmaxle : maxLen ≤ maxLen0 := by
        rw [hml]
        split
        · rename_i hc
          omega
        · omega
      unfold minMatchLength at hmin
      exact ⟨by omega, by omega⟩

theorem lenExt_length (l : Nat) :
    (lenExt l).length = if 15 ≤ l then (l - 15) / 255 + 1 else 0 := by
  unfold lenExt
  split
  · rw [extBytes_length]
  · rfl

theorem encFinal_length (src : List Nat) (a : Nat) :
    (encFinal src a).length =
      if a < src.length then 1 + (lenExt (src.length - a)).length + (src.length - a) else 0 := by
  unfold encFinal
  split
  · simp [List.length_cons, List.length_append, List.length_drop]
    omega
  · rfl

theorem encSeq_length (src : List Nat) (s : MSeq) (hin : s.litPos + s.litLen ≤ src.length) :
    (encSeq src s).length = 1 + (lenExt s.litLen).length + s.litLen + 2 +
      (lenExt (s.matchLen - minMatchLength)).length := by
  unfold encSeq
  simp only [List.length_cons, List.length_append, List.length_take, List.length_drop,
    List.length_nil]
  omega

theorem encodeSeqs_cons (src : List Nat) (s : MSeq) (rest : List MSeq) (fin : Nat) :
    encodeSeqs src (s :: rest, fin) = encSeq src s ++ encodeSeqs src (rest, fin) := by
  unfold encodeSeqs
  simp

theorem encodeSeqs_nil (src : List Nat) (fin : Nat) :
    encodeSeqs src ([], fin) = encFinal src fin := by
  unfold encodeSeqs
  simp

/-- The compressed size bound behind the `worstCaseSize` destination:
from any scan state, the bytes still to be emitted fit in
`remaining + remaining / 255 + 2` where `remaining = src.length - anchor`. -/
theorem encodeSeqs_length_le (src : List Nat) : ∀ fuel srcPos anchor table,
    anchor ≤ srcPos → srcPos ≤ src.length →
    (encodeSeqs src (seqLoop fuel src srcPos anchor table)).length ≤
      (src.length - anchor) + (src.length - anchor) / 255 + 2 := by
  intro fuel
  induction fuel with
  | zero =>
    intro srcPos anchor table ha hsp
    show (encodeSeqs src ([], anchor)).length ≤ _
    rw [encodeSeqs_nil, encFinal_length]
    split
    · rw [lenExt_length]
      split <;> omega
    · omega
  | succ f ih =>
    intro srcPos anchor table ha hsp
    rw [seqLoop_succ]
    by_cases hcond : srcPos + minMatchLength ≤ src.length
    · rw [if_pos hcond]
      have hcond4 : srcPos + 4 ≤ src.length := hcond
      rcases hstep : stepMatch src srcPos table with ⟨table1, mOpt⟩
      cases mOpt with
      | none => exact ih (srcPos + 1) anchor table1 (by omega) (by omega)
      | some om =>
        rcases om with ⟨offset, matchLen⟩
        obtain ⟨h4, h5⟩ := stepMatch_some_basic hstep
        show (encodeSeqs src (⟨anchor, srcPos - anchor, offset, matchLen⟩ ::
            (seqLoop f src (srcPos + matchLen) (srcPos + matchLen) table1).1,
            (seqLoop f src (srcPos + matchLen) (srcPos + matchLen) table1).2)).length ≤ _
        have hrest : (encodeSeqs src
            ((seqLoop f src (srcPos + matchLen) (srcPos + matchLen) table1).1,
             (seqLoop f src (srcPos + matchLen) (srcPos + matchLen) table1).2)).length ≤
            (src.length - (srcPos + matchLen)) + (src.length - (srcPos + matchLen)) / 255 + 2 :=
          ih (srcPos + matchLen) (srcPos + matchLen) table1 (Nat.le_refl _) (by omega)
        rw [encodeSeqs_cons, List.length_append]
        rw [encSeq_length src _ (by simp only []; omega)]
        simp only []
        rw [lenExt_length, lenExt_length]
        unfold minMatchLength
        by_cases hl : 15 ≤ srcPos - anchor <;>
          by_cases hm : 15 ≤ matchLen - 4 <;>
            [rw [if_pos hl, if_pos hm]; rw [if_pos hl, if_neg hm];
             rw [if_neg hl, if_pos hm]; rw [if_neg hl, if_neg hm]] <;> omega
    · rw [if_neg hcond]
      show (encodeSeqs src ([], anchor)).length ≤ _
      rw [encodeSeqs_nil, encFinal_length]
      split
      · rw [lenExt_length]
        split <;> omega
      · omega

end LZ4

namespace LZ4

/-! ## The byte loop emits exactly the encoding of the ghost loop -/

theorem compressLoop_succ (f : Nat) (src : List Nat) (dstLen srcPos anchor : Nat)
    (table : Nat → Nat) (out : List Nat) :
    compressLoop (f + 1) src dstLen srcPos anchor table out =
      if srcPos + minMatchLength ≤ src.length then
        match stepMatch src srcPos table with
        | (table1, none) => compressLoop f src dstLen (srcPos + 1) anchor table1 out
        | (table1, some (offset, matchLen)) =>
          match emitSeq dstLen out src anchor srcPos offset matchLen with
          | .error e => .error e
          | .ok out6 =>
            compressLoop f src dstLen (srcPos + matchLen) (srcPos + matchLen) table1 out6
      else emitFinal dstLen out src anchor := rfl

theorem writeByte_ok {dstLen : Nat} {out : List Nat} (b : Nat) (h : out.length < dstLen) :
    writeByte dstLen out b = .ok (out ++ [b]) := by
  unfold writeByte
  rw [if_pos h]

/-- The conditional length-extension emission equals appending
`lenExt`. -/
theorem emitExtOpt_ok (dstLen : Nat) (out : List Nat) (l : Nat)
    (hroom : out.length + (lenExt l).length ≤ dstLen) :
    (if 15 ≤ l then emitExt (l + 1) dstLen out (l - 15) else .ok out) =
      .ok (out ++ lenExt l) := by
  by_cases hl : 15 ≤ l
  · rw [if_pos hl]
    unfold lenExt at hroom ⊢
    rw [if_pos hl] at hroom ⊢
    exact emitExt_ok dstLen (l + 1) (l - 15) out (by omega) hroom
  · rw [if_neg hl]
    unfold lenExt
    rw [if_neg hl]
    simp

/-- The `if literalLen > 0` around the Go literal copy is redundant in
the list model. -/
theorem ifCopy (l xs : List Nat) (n : Nat) :
    (if 0 < n then l ++ xs.take n else l) = l ++ xs.take n := by
  split
  · rfl
  · rename_i h
    have h0 : n = 0 := by omega
    simp [h0]

/-- Emitting one match sequence succeeds and appends its encoding
whenever the destination has room for the whole encoding. -/
theorem emitSeq_ok (dstLen : Nat) (out src : List Nat) (anchor srcPos offset matchLen : Nat)
    (ha : anchor ≤ srcPos) (hin : srcPos ≤ src.length)
    (hroom : out.length +
      (encSeq src ⟨anchor, srcPos - anchor, offset, matchLen⟩).length ≤ dstLen) :
    emitSeq dstLen out src anchor srcPos offset matchLen =
      .ok (out ++ encSeq src ⟨anchor, srcPos - anchor, offset, matchLen⟩) := by
  have hlen := encSeq_length src ⟨anchor, srcPos - anchor, offset, matchLen⟩
    (by simp only []; omega)
  simp only [] at hlen
  have htk : min (srcPos - anchor) (src.length - anchor) = srcPos - anchor := by omega
  unfold emitSeq
  simp only []
  rw [if_neg (by omega)]
  rw [writeByte_ok _ (by omega)]
  simp only []
  rw [emitExtOpt_ok dstLen _ (srcPos - anchor) (by
    simp only [List.length_append, List.length_cons, List.length_nil]
    omega)]
  simp only []
  rw [ifCopy]
  rw [writeByte_ok _ (by
    simp only [List.length_append, List.length_cons, List.length_nil, List.length_take,
      List.length_drop, htk]
    omega)]
  simp only []
  rw [writeByte_ok _ (by
    simp only [List.length_append, List.length_cons, List.length_nil, List.length_take,
      List.length_drop, htk]
    omega)]
  simp only []
  rw [emitExtOpt_ok dstLen _ (matchLen - minMatchLength) (by
    simp only [List.length_append, List.length_cons, List.length_nil, List.length_take,
      List.length_drop, htk]
    omega)]
  unfold encSeq tokenOf
  simp only []
  simp [List.append_assoc]

end LZ4

namespace LZ4

theorem emitFinal_ok (dstLen : Nat) (out src : List Nat) (anchor : Nat)
    (hroom : out.length + (encFinal src anchor).length ≤ dstLen) :
    emitFinal dstLen out src anchor = .ok (out ++ encFinal src anchor) := by
  unfold emitFinal
  by_cases hfin : anchor < src.length
  · have hlen : (encFinal src anchor).length =
        1 + (lenExt (src.length - anchor)).length + (src.length - anchor) := by
      rw [encFinal_length, if_pos hfin]
    rw [if_pos hfin]
    simp only []
    rw [if_neg (by omega)]
    rw [writeByte_ok _ (by omega)]
    simp only []
    rw [emitExtOpt_ok dstLen _ (src.length - anchor) (by
      simp only [List.length_append, List.length_cons, List.length_nil]
      omega)]
    simp only []
    unfold encFinal
    rw [if_pos hfin]
    have htake : (src.drop anchor).take (src.length - anchor) = src.drop anchor := by
      apply List.take_of_length_le
      simp
    rw [htake]
    simp [List.append_assoc]
  · rw [if_neg hfin]
    unfold encFinal
    rw [if_neg hfin]
    simp

/-- The bridge: with enough room in the destination, the byte-level scan
loop succeeds and writes exactly the encoding of the ghost loop's
sequences. -/
theorem compressLoop_eq (src : List Nat) (dstLen : Nat) : ∀ fuel srcPos anchor table out,
    anchor ≤ srcPos → srcPos ≤ src.length → src.length - srcPos < fuel →
    out.length + (encodeSeqs src (seqLoop fuel src srcPos anchor table)).length ≤ dstLen →
    compressLoop fuel src dstLen srcPos anchor table out =
      .ok (out ++ encodeSeqs src (seqLoop fuel src srcPos anchor table)) := by
  intro fuel
  induction fuel with
  | zero => intro srcPos anchor table out ha hsp hfuel hroom; omega
  | succ f ih =>
    intro srcPos anchor table out ha hsp hfuel hroom
    by_cases hcond : srcPos + minMatchLength ≤ src.length
    · have hcond4 : srcPos + 4 ≤ src.length := hcond
      rcases hstep : stepMatch src srcPos table with ⟨table1, mOpt⟩
      cases mOpt with
      | none =>
        have hseqeq : seqLoop (f + 1) src srcPos anchor table =
            seqLoop f src (srcPos + 1) anchor table1 := by
          rw [seqLoop_succ, if_pos hcond, hstep]
        rw [hseqeq] at hroom
        rw [compressLoop_succ, if_pos hcond, hstep, hseqeq]
        exact ih (srcPos + 1) anchor table1 out (by omega) (by omega) (by omega) hroom
      | some om =>
        rcases om with ⟨offset, matchLen⟩
        obtain ⟨h4, h5⟩ := stepMatch_some_basic hstep
        have hpair : ((seqLoop f src (srcPos + matchLen) (srcPos + matchLen) table1).1,
            (seqLoop f src (srcPos + matchLen) (srcPos + matchLen) table1).2) =
            seqLoop f src (srcPos + matchLen) (srcPos + matchLen) table1 := rfl
        have hseqeq : seqLoop (f + 1) src srcPos anchor table =
            (⟨anchor, srcPos - anchor, offset, matchLen⟩ ::
              (seqLoop f src (srcPos + matchLen) (srcPos + matchLen) table1).1,
              (seqLoop f src (srcPos + matchLen) (srcPos + matchLen) table1).2) := by
          rw [seqLoop_succ, if_pos hcond, hstep]
        rw [hseqeq, encodeSeqs_cons, List.length_append, hpair] at hroom
        rw [compressLoop_succ, if_pos hcond, hstep, hseqeq, encodeSeqs_cons, hpair]
        simp only []
        rw [emitSeq_ok dstLen out src anchor srcPos offset matchLen ha hsp (by omega)]
        show compressLoop f src dstLen (srcPos + matchLen) (srcPos + matchLen) table1
          (out ++ encSeq src ⟨anchor, srcPos - anchor, offset, matchLen⟩) = _
        rw [ih (srcPos + matchLen) (srcPos + matchLen) table1
          (out ++ encSeq src ⟨anchor, srcPos - anchor, offset, matchLen⟩) (Nat.le_refl _)
          (by omega) (by omega)
          (by rw [List.length_append]; omega)]
        simp [List.append_assoc]
    · have hseqeq : seqLoop (f + 1) src srcPos anchor table = ([], anchor) := by
        rw [seqLoop_succ, if_neg hcond]
      rw [hseqeq, encodeSeqs_nil] at hroom
      rw [compressLoop_succ, if_neg hcond, hseqeq, encodeSeqs_nil]
      exact emitFinal_ok dstLen out src anchor hroom

/-- `compressBlock` emits exactly the encoding of its ghost sequence
view when the destination has room for it. -/
theorem compressBlock_encodes (src : List Nat) (dstLen : Nat)
    (hroom : (encodeSeqs src (seqLoop (src.length + 1) src 0 0 emptyHashTable)).length ≤
      dstLen) :
    compressBlock src dstLen =
      .ok (encodeSeqs src (seqLoop (src.length + 1) src 0 0 emptyHashTable)) := by
  unfold compressBlock
  by_cases h0 : src.length = 0
  · rw [if_pos h0]
    have hnil : src = [] := List.length_eq_zero.mp h0
    subst hnil
    rfl
  · rw [if_neg h0]
    have h9 := compressLoop_eq src dstLen (src.length + 1) 0 0 emptyHashTable []
      (Nat.le_refl 0) (Nat.zero_le _) (by omega) (by simpa using hroom)
    rw [h9]
    simp

end LZ4

namespace LZ4

/-! ## Decoder utilities -/

theorem byteAt_take (src : List Nat) (p i : Nat) (h : i < p) :
    byteAt (src.take p) i = byteAt src i := by
  unfold byteAt
  by_cases hl : i < src.length
  · rw [List.getD_eq_getElem _ _ (by simp [List.length_take]; omega),
      List.getD_eq_getElem _ _ hl]
    exact List.getElem_take src
  · rw [List.getD_eq_default _ _ (by simp [List.length_take]; omega),
      List.getD_eq_default _ _ (by omega)]

theorem byteAt_eq_getElem (src : List Nat) (i : Nat) (h : i < src.length) :
    byteAt src i = src[i] := List.getD_eq_getElem src 0 h

theorem take_append_byte (src : List Nat) (p : Nat) (h : p < src.length) :
    src.take p ++ [byteAt src p] = src.take (p + 1) := by
  rw [List.take_succ]
  congr 1
  rw [List.getElem?_eq_getElem h]
  rw [byteAt_eq_getElem src p h]
  rfl

/-- The byte-by-byte overlap copy extends a correct prefix to a longer
correct prefix: reading freshly written output reproduces `src` because
the compressor verified all `matchLen` byte equalities. -/
theorem copyOverlap_spec (src : List Nat) (off : Nat) (hoff : 1 ≤ off) :
    ∀ n p, off ≤ p → p + n ≤ src.length →
      (∀ k, k < n → byteAt src (p + k) = byteAt src (p - off + k)) →
      copyOverlap (src.take p) (p - off) n = src.take (p + n) := by
  intro n
  induction n with
  | zero =>
    intro p h1 h2 h3
    unfold copyOverlap
    simp
  | succ m ih =>
    intro p h1 h2 h3
    show copyOverlap (src.take p ++ [byteAt (src.take p) (p - off)]) (p - off + 1) m = _
    have e1 : byteAt (src.take p) (p - off) = byteAt src p := by
      rw [byteAt_take src p (p - off) (by omega)]
      have h9 := h3 0 (by omega)
      simpa using h9.symm
    rw [e1, take_append_byte src p (by omega)]
    have e2 : p - off + 1 = (p + 1) - off := by omega
    rw [e2]
    rw [ih (p + 1) (by omega) (by omega) (by
      intro k hk
      have h9 := h3 (k + 1) (by omega)
      rw [show p + 1 + k = p + (k + 1) from by omega,
        show p + 1 - off + k = p - off + (k + 1) from by omega]
      exact h9)]
    congr 1
    omega

/-- The bulk copy branch (`offset ≥ matchLen`) also extends the prefix
correctly: its source slice lies entirely in already-decoded output and
equals the next `matchLen` bytes of `src`. -/
theorem bulkCopy_spec (src : List Nat) (off n p : Nat) (hoff : 1 ≤ off) (hno : n ≤ off)
    (hop : off ≤ p) (hlen : p + n ≤ src.length)
    (heq : ∀ k, k < n → byteAt src (p + k) = byteAt src (p - off + k)) :
    src.take p ++ ((src.take p).drop (p - off)).take n = src.take (p + n) := by
  have hstep : ((src.take p).drop (p - off)).take n = (src.drop p).take n := by
    apply List.ext_getElem
    · simp [List.length_take, List.length_drop]
      omega
    · intro i h1 h2
      simp only [List.length_take, List.length_drop] at h1 h2
      have hi : i < n := by omega
      have h9 := heq i hi
      have e3 := byteAt_eq_getElem src (p + i) (by omega)
      have e4 := byteAt_eq_getElem src (p - off + i) (by omega)
      rw [e3, e4] at h9
      simp only [List.getElem_take, List.getElem_drop]
      exact h9.symm
  rw [hstep, ← List.take_add]

/-- Token nibble arithmetic, finitely checked. -/
theorem nibble_facts : ∀ a, a < 16 → ∀ b, b < 16 →
    (((a <<< 4) % 256 ||| b) >>> 4 = a ∧ ((a <<< 4) % 256 ||| b) &&& 15 = b ∧
      ((a <<< 4) % 256 ||| b) < 256) := by decide

theorem tokenOf_hi (lit mlc : Nat) :
    tokenOf lit mlc >>> 4 = if lit < 15 then lit else 15 := by
  unfold tokenOf
  by_cases hl : lit < 15 <;> by_cases hm : mlc < 15
  · rw [if_pos hl, if_pos hm, if_pos hl]
    rw [Nat.mod_eq_of_lt (by omega : mlc < 256)]
    exact (nibble_facts lit (by omega) mlc (by omega)).1
  · rw [if_pos hl, if_neg hm, if_pos hl]
    exact (nibble_facts lit (by omega) 15 (by omega)).1
  · rw [if_neg hl, if_pos hm, if_neg hl]
    rw [Nat.mod_eq_of_lt (by omega : mlc < 256)]
    rw [show (0xF0 : Nat) = (15 <<< 4) % 256 from rfl]
    exact (nibble_facts 15 (by omega) mlc (by omega)).1
  · rw [if_neg hl, if_neg hm, if_neg hl]
    rw [show (0xF0 : Nat) = (15 <<< 4) % 256 from rfl]
    exact (nibble_facts 15 (by omega) 15 (by omega)).1

theorem tokenOf_lo (lit mlc : Nat) :
    tokenOf lit mlc &&& 15 = if mlc < 15 then mlc else 15 := by
  unfold tokenOf
  by_cases hl : lit < 15 <;> by_cases hm : mlc < 15
  · rw [if_pos hl, if_pos hm, if_pos hm]
    rw [Nat.mod_eq_of_lt (by omega : mlc < 256)]
    exact (nibble_facts lit (by omega) mlc (by omega)).2.1
  · rw [if_pos hl, if_neg hm, if_neg hm]
    exact (nibble_facts lit (by omega) 15 (by omega)).2.1
  · rw [if_neg hl, if_pos hm, if_pos hm]
    rw [Nat.mod_eq_of_lt (by omega : mlc < 256)]
    rw [show (0xF0 : Nat) = (15 <<< 4) % 256 from rfl]
    exact (nibble_facts 15 (by omega) mlc (by omega)).2.1
  · rw [if_neg hl, if_neg hm, if_neg hm]
    rw [show (0xF0 : Nat) = (15 <<< 4) % 256 from rfl]
    exact (nibble_facts 15 (by omega) 15 (by omega)).2.1

theorem finalToken_hi : ∀ l : Nat,
    (if l < 15 then (l <<< 4) % 256 else 0xF0) >>> 4 = if l < 15 then l else 15 := by
  intro l
  by_cases hl : l < 15
  · rw [if_pos hl, if_pos hl]
    have h9 := (nibble_facts l (by omega) 0 (by omega)).1
    simpa using h9
  · rw [if_neg hl, if_neg hl]
    decide

end LZ4

namespace LZ4

/-! ## Decoding the encoding -/

theorem decLoop_nil (f : Nat) (out : List Nat) (dstLen : Nat) :
    decLoop (f + 1) [] out dstLen = (out, none) := rfl

theorem decLoop_cons (f : Nat) (token : Nat) (rest out : List Nat) (dstLen : Nat) :
    decLoop (f + 1) (token :: rest) out dstLen =
      (if dstLen ≤ out.length then (out, some .blockTooLarge)
      else
        match (if token >>> 4 = 15 then readExtLoop rest (token >>> 4)
               else some (token >>> 4, rest)) with
        | none => (out, some .unexpectedEOF)
        | some (litLen, rest1) =>
          if rest1.length < litLen then (out, some .unexpectedEOF)
          else if dstLen < out.length + litLen then (out, some .blockTooLarge)
          else
            let out1 := out ++ rest1.take litLen
            match rest1.drop litLen with
            | [] => (out1, none)
            | [_] => (out1, some .unexpectedEOF)
            | b0 :: b1 :: rest4 =>
              let offset := getUint16LE b0 b1
              if offset = 0 ∨ out1.length < offset then (out1, some .corrupted)
              else
                match (if token &&& 0x0F = 15 then readExtLoop rest4 (token &&& 0x0F)
                       else some (token &&& 0x0F, rest4)) with
                | none => (out1, some .unexpectedEOF)
                | some (mlc, rest5) =>
                  let matchLen := mlc + minMatchLength
                  if dstLen < out1.length + matchLen then (out1, some .blockTooLarge)
                  else if out1.length < offset then (out1, some .corrupted)
                  else
                    let refPos := out1.length - offset
                    let out2 := if matchLen ≤ offset then
                        out1 ++ (out1.drop refPos).take matchLen
                      else copyOverlap out1 refPos matchLen
                    decLoop f rest5 out2 dstLen) := rfl

/-- Parsing a literal length (base nibble plus optional extension)
consumes exactly `lenExt l` and yields `l`. -/
theorem parseLen_spec (l : Nat) (tail : List Nat) (hi : Nat) (hhi : hi = if l < 15 then l else 15) :
    (if hi = 15 then readExtLoop (lenExt l ++ tail) hi else some (hi, lenExt l ++ tail)) =
      some (l, tail) := by
  by_cases hl : l < 15
  · subst hhi
    rw [if_pos hl, if_neg (by omega)]
    unfold lenExt
    rw [if_neg (by omega)]
    simp
  · subst hhi
    rw [if_neg hl, if_pos rfl]
    unfold lenExt
    rw [if_pos (by omega)]
    rw [readExtLoop_extBytes (l - 15) 15 tail]
    have he : 15 + (l - 15) = l := by omega
    rw [he]

/-- Decoding the trailing literals-only encoding completes the block. -/
theorem decLoop_final (src : List Nat) (dstLen : Nat) (a : Nat) (f : Nat)
    (ha : a ≤ src.length) (hd : src.length ≤ dstLen) :
    decLoop (f + 1) (encFinal src a) (src.take a) dstLen = (src, none) := by
  by_cases hfin : a < src.length
  · unfold encFinal
    rw [if_pos hfin]
    rw [decLoop_cons]
    have hta : (src.take a).length = a := by
      simp [List.length_take]
      omega
    have hdl : (src.drop a).length = src.length - a := by simp
    rw [if_neg (by omega)]
    rw [finalToken_hi (src.length - a)]
    rw [parseLen_spec (src.length - a) (src.drop a) _ rfl]
    split
    · rename_i hcontra
      exact absurd hcontra (by simp)
    · rename_i litLen rest1 hinj
      injection hinj with hinj2
      injection hinj2 with hA hB
      subst hA
      subst hB
      rw [if_neg (by omega), if_neg (by omega)]
      rw [List.take_of_length_le (show (List.drop a src).length ≤ src.length - a by omega)]
      rw [List.drop_eq_nil_of_le (show (List.drop a src).length ≤ src.length - a by omega)]
      split
      · rw [List.take_append_drop]
      · rename_i h9 h8
        simp at h8
      · rename_i h9 h8
        simp at h8
  · unfold encFinal
    rw [if_neg hfin]
    rw [decLoop_nil]
    have haa : a = src.length := by omega
    rw [haa, List.take_length]

end LZ4

namespace LZ4

/-- Decoding the concatenated encodings of a valid sequence list plus
the trailing literals reconstructs `src` exactly. -/
theorem decLoop_encodes (src : List Nat) (dstLen : Nat) (hd : src.length ≤ dstLen) :
    ∀ seqs a fin, Covers src a seqs fin → ∀ f, seqs.length ≤ f →
      decLoop (f + 1) ((seqs.map (encSeq src)).flatten ++ encFinal src fin)
        (src.take a) dstLen = (src, none) := by
  intro seqs a fin hcov
  induction hcov with
  | nil a ha =>
    intro f hf
    simp only [List.map_nil, List.flatten_nil, List.nil_append]
    exact decLoop_final src dstLen a f ha hd
  | cons a s rest fin hpos h1 h2 h3 h4 h5 h6 h7 hcov2 ih =>
    intro f hf
    simp only [List.length_cons] at hf
    obtain ⟨g, rfl⟩ : ∃ g, f = g + 1 := ⟨f - 1, by omega⟩
    have h4n : 4 ≤ s.matchLen := h4
    have h2n : s.offset ≤ 65535 := h2
    have hfin2 := hcov2.fin_le
    simp only [List.map_cons, List.flatten_cons]
    have hENC : encSeq src s = tokenOf s.litLen (s.matchLen - minMatchLength) ::
        (lenExt s.litLen ++ (src.drop s.litPos).take s.litLen ++
          [s.offset % 256, (s.offset >>> 8) % 256] ++
          lenExt (s.matchLen - minMatchLength)) := rfl
    rw [hENC, hpos]
    simp only [List.cons_append, List.append_assoc]
    rw [decLoop_cons]
    have hta : (src.take a).length = a := by
      simp [List.length_take]
      omega
    rw [if_neg (by omega)]
    rw [tokenOf_hi, tokenOf_lo]
    rw [parseLen_spec s.litLen _ _ rfl]
    split
    · rename_i hcontra
      exact absurd hcontra (by simp)
    · rename_i litLen rest1 hinj
      injection hinj with hinj2
      injection hinj2 with hA hB
      subst hA
      subst hB
      have htlit : ((src.drop a).take s.litLen).length = s.litLen := by
        simp [List.length_take, List.length_drop]
        omega
      rw [if_neg (by
        simp only [List.length_append, List.length_cons, htlit]
        omega)]
      rw [if_neg (by omega)]
      rw [List.take_left' htlit, List.drop_left' htlit]
      split
      · rename_i h9 h8
        simp at h8
      · rename_i h9 h8
        simp at h8
      · rename_i h9 b0 b1 rest4 h8
        injection h8 with hb0 h8b
        injection h8b with hb1 h8c
        subst hb0
        subst hb1
        subst h8c
        have hout1 : src.take a ++ (src.drop a).take s.litLen = src.take (a + s.litLen) := by
          rw [List.take_add]
        rw [hout1]
        have htp : (src.take (a + s.litLen)).length = a + s.litLen := by
          simp [List.length_take]
          omega
        rw [getUint16LE_put s.offset (by omega)]
        rw [if_neg (by
          rw [htp]
          omega)]
        simp only [List.nil_append]
        rw [parseLen_spec (s.matchLen - minMatchLength) _ _ rfl]
        split
        · rename_i hcontra
          exact absurd hcontra (by simp)
        · rename_i mlc rest5 hinj5
          injection hinj5 with hinj6
          injection hinj6 with hC hD
          subst hC
          subst hD
          have hmm4 : s.matchLen - minMatchLength + minMatchLength = s.matchLen := by
            unfold minMatchLength
            omega
          rw [hmm4]
          rw [if_neg (by rw [htp]; omega)]
          rw [if_neg (by rw [htp]; omega)]
          rw [htp]
          have hcopy : (if s.matchLen ≤ s.offset then
              src.take (a + s.litLen) ++
                ((src.take (a + s.litLen)).drop (a + s.litLen - s.offset)).take s.matchLen
            else copyOverlap (src.take (a + s.litLen)) (a + s.litLen - s.offset) s.matchLen) =
              src.take (a + s.litLen + s.matchLen) := by
            split
            · rename_i hbulk
              exact bulkCopy_spec src s.offset s.matchLen (a + s.litLen) h1 hbulk h3
                (by omega) h7
            · rename_i hbulk
              exact copyOverlap_spec src s.offset h1 s.matchLen (a + s.litLen) h3
                (by omega) h7
          rw [hcopy]
          exact ih g (by omega)

end LZ4

namespace LZ4

/-! ## Block-level round trip -/

/-- The compressed bytes `compressBlock` produces for a block (its ghost
encoding). -/
def compOf (c : List Nat) : List Nat :=
  encodeSeqs c (seqLoop (c.length + 1) c 0 0 emptyHashTable)

/-- The decoded bytes of a compressed payload, as `Reader.Read` uses
them. -/
def decodeOf (c : List Nat) : List Nat := (decompressBlock c defaultBlockSize).1

theorem compOf_length_le (c : List Nat) :
    (compOf c).length ≤ c.length + c.length / 255 + 2 := by
  have h9 := encodeSeqs_length_le c (c.length + 1) 0 0 emptyHashTable (Nat.le_refl 0)
    (Nat.zero_le _)
  simpa using h9

theorem compressBlock_compOf (c : List Nat) (dstLen : Nat)
    (hroom : c.length + c.length / 255 + 2 ≤ dstLen) :
    compressBlock c dstLen = .ok (compOf c) :=
  compressBlock_encodes c dstLen (by
    have h9 := compOf_length_le c
    unfold compOf at h9
    omega)

theorem encodeSeqs_length_ge (src : List Nat) (seqs : List MSeq) (fin : Nat) :
    seqs.length ≤ (encodeSeqs src (seqs, fin)).length := by
  induction seqs with
  | nil => simp
  | cons s rest ih =>
    rw [encodeSeqs_cons, List.length_append, List.length_cons]
    unfold encSeq
    simp only [List.length_cons]
    omega

/-- The full block round trip: compressing into a worst-case-sized
destination succeeds and decompressing the result into a block-sized
buffer returns exactly the original block with no error. -/
theorem blockRoundTrip (c : List Nat) (hlen : c.length ≤ maxBlockSize) :
    decompressBlock (compOf c) defaultBlockSize = (c, none) := by
  have h32 : c.length < 2 ^ 32 := by
    unfold maxBlockSize at hlen
    omega
  have hcov := seqLoop_covers c (c.length + 1) 0 0 emptyHashTable h32 (Nat.le_refl 0)
    (Nat.zero_le _) (by intro hh hv; exact absurd rfl hv) (by omega)
  have hfl : c.length ≤ defaultBlockSize := hlen
  unfold decompressBlock compOf
  have hgoal := decLoop_encodes c defaultBlockSize hfl
    (seqLoop (c.length + 1) c 0 0 emptyHashTable).1 0
    (seqLoop (c.length + 1) c 0 0 emptyHashTable).2 hcov
    (encodeSeqs c (seqLoop (c.length + 1) c 0 0 emptyHashTable)).length
    (by
      have h9 := encodeSeqs_length_ge c (seqLoop (c.length + 1) c 0 0 emptyHashTable).1
        (seqLoop (c.length + 1) c 0 0 emptyHashTable).2
      simpa using h9)
  simp only [List.take_zero] at hgoal
  unfold encodeSeqs at hgoal ⊢
  exact hgoal

theorem decodeOf_compOf (c : List Nat) (hlen : c.length ≤ maxBlockSize) :
    decodeOf (compOf c) = c := by
  unfold decodeOf
  rw [blockRoundTrip c hlen]

/-- A nonempty block compresses to a nonempty payload. -/
theorem compOf_pos (c : List Nat) (hpos : 0 < c.length) (hlen : c.length ≤ maxBlockSize) :
    0 < (compOf c).length := by
  by_contra h0
  have hz : (compOf c).length = 0 := by omega
  have hrt := blockRoundTrip c hlen
  have hce : compOf c = [] := List.length_eq_zero.mp hz
  rw [hce] at hrt
  unfold decompressBlock at hrt
  simp only [List.length_nil] at hrt
  rw [decLoop_nil] at hrt
  have h9 := congrArg Prod.fst hrt
  simp at h9
  rw [h9] at hpos
  simp at hpos

/-! ## Writer side of the stream -/

/-- The block record `Writer.Write` emits for one chunk. -/
def recordOf (c : List Nat) : List Nat := putUint32LE (compOf c).length ++ compOf c

theorem writeBlocksLoop_single (c : List Nat) (h1 : 0 < c.length)
    (h2 : c.length < defaultBlockSize) :
    writeBlocksLoop (c.length + 1) c = .ok (recordOf c) := by
  show (if 0 < c.length then _ else _) = _
  rw [if_pos h1]
  simp only []
  rw [if_pos h2]
  rw [List.take_of_length_le (Nat.le_refl _), List.drop_length]
  rw [compressBlock_compOf c _ (by omega)]
  have hrest : writeBlocksLoop c.length [] = .ok [] := by
    match hc : c.length, h1 with
    | n + 1, _ =>
      show (if 0 < (0 : Nat) then _ else _) = _
      rw [if_neg (by omega)]
  rw [hrest]
  unfold recordOf
  simp

theorem chunksOf_succ (f n : Nat) (l : List Nat) :
    chunksOf (f + 1) n l =
      if 0 < l.length then l.take n :: chunksOf f n (l.drop n) else [] := rfl

theorem chunksOf_props (n : Nat) (hn : 0 < n) : ∀ fuel l, l.length < fuel →
    (∀ c ∈ chunksOf fuel n l, 0 < c.length ∧ c.length ≤ n) ∧
      (chunksOf fuel n l).flatten = l := by
  intro fuel
  induction fuel with
  | zero => intro l hl; omega
  | succ f ih =>
    intro l hl
    rw [chunksOf_succ]
    by_cases hz : 0 < l.length
    · rw [if_pos hz]
      have hdrop : (l.drop n).length < f := by
        simp only [List.length_drop]
        omega
      obtain ⟨ih1, ih2⟩ := ih (l.drop n) hdrop
      constructor
      · intro c hc
        rcases List.mem_cons.mp hc with rfl | hc2
        · constructor
          · simp [List.length_take]
            omega
          · simp [List.length_take]
        · exact ih1 c hc2
      · simp only [List.flatten_cons, ih2]
        exact List.take_append_drop n l
    · rw [if_neg hz]
      constructor
      · intro c hc
        simp at hc
      · have hznil : l = [] := by
          have h9 : l.length = 0 := by omega
          exact List.length_eq_zero.mp h9
        simp [hznil]

theorem compressStreamLoop_spec : ∀ (cs : List (List Nat)),
    (∀ c ∈ cs, 0 < c.length ∧ c.length ≤ 65536) → ∀ hw,
    compressStreamLoop cs hw =
      .ok ((if hw then [] else frameHeaderBytes) ++ (cs.map recordOf).flatten ++ endMarkBytes) := by
  intro cs
  induction cs with
  | nil =>
    intro hgood hw
    simp [compressStreamLoop]
  | cons c rest ih =>
    intro hgood hw
    obtain ⟨hc1, hc2⟩ := hgood c (List.mem_cons_self c rest)
    have hcons : compressStreamLoop (c :: rest) hw =
        (match writeBlocksLoop (c.length + 1) c with
        | .error e => .error e
        | .ok records =>
          match compressStreamLoop rest true with
          | .error e => .error e
          | .ok rest2 =>
            .ok ((if hw then [] else frameHeaderBytes) ++ records ++ rest2)) := rfl
    rw [hcons, writeBlocksLoop_single c hc1 (by unfold defaultBlockSize; omega)]
    simp only []
    rw [ih (fun d hd => hgood d (List.mem_cons_of_mem c hd)) true]
    simp [List.append_assoc]

/-- `CompressStream` output: header, one record per 64 KiB chunk of the
input, end-mark. -/
theorem compressStream_spec (x : List Nat) :
    compressStream x =
      .ok (frameHeaderBytes ++
        (((chunksOf (x.length + 1) 65536 x).map recordOf).flatten ++ endMarkBytes)) := by
  unfold compressStream
  obtain ⟨h1, h2⟩ := chunksOf_props 65536 (by norm_num) (x.length + 1) x (by omega)
  rw [compressStreamLoop_spec (chunksOf (x.length + 1) 65536 x) h1 false]
  simp [List.append_assoc]

end LZ4

namespace LZ4

/-! ## Reader side: frame header -/

theorem frameHeaderBytes_val : frameHeaderBytes = [4, 34, 77, 24, 96, 112, 115] := by rfl

theorem readFull_exact (l rest : List Nat) (n : Nat) (h : l.length = n) :
    readFull (l ++ rest) n = .ok (l, rest) := by
  unfold readFull
  rw [if_pos (by simp [List.length_append]; omega)]
  rw [List.take_left' h, List.drop_left' h]

/-- The header `WriteFrameHeader` emits, as `ReadFrameHeader` decodes
it. -/
def goodHeader : DecodedFrameHeader :=
  ⟨0x184D2204, 1, true, false, false, false, false, 0, 0, 4 <<< 20⟩

theorem readFrameHeader_good (rest : List Nat) :
    readFrameHeader (frameHeaderBytes ++ rest) = .ok (goodHeader, rest) := by
  rw [frameHeaderBytes_val]
  unfold readFrameHeader
  rw [readFull_exact [4, 34, 77, 24, 96, 112, 115] rest 7 rfl]
  simp only []
  rw [if_neg (by decide)]
  rw [if_neg (by decide)]
  norm_num [byteAt, List.getD]
  rw [if_pos (by decide : (96 : Nat) &&& 8 = 0)]
  simp only []
  norm_num [goodHeader]
  decide

theorem headerChecks_good : headerChecks goodHeader = none := by decide

/-! ## Reader side: block records -/

/-- The raw bytes of a list of block records. -/
def recordsBytes (cs : List (List Nat)) : List Nat :=
  (cs.map (fun c => putUint32LE c.length ++ c)).flatten

/-- What the reader needs of each compressed payload in the stream. -/
def GoodBlocks (cs : List (List Nat)) : Prop :=
  ∀ c ∈ cs, 0 < c.length ∧ c.length ≤ maxBlockSize ∧ c.length < 2 ^ 31 ∧
    (decompressBlock c defaultBlockSize).2 = none ∧
    0 < (decodeOf c).length ∧ (decodeOf c).length ≤ 65536

theorem and_high_bit_zero (n : Nat) (h : n < 2 ^ 31) : n &&& 0x80000000 = 0 := by
  rw [show (0x80000000 : Nat) = 2 ^ 31 from by norm_num, Nat.and_two_pow]
  rw [Nat.testBit_eq_false_of_lt h]
  rfl

theorem recordsBytes_length_ge (cs : List (List Nat)) :
    cs.length ≤ (recordsBytes cs).length := by
  induction cs with
  | nil => simp [recordsBytes]
  | cons c rest ih =>
    unfold recordsBytes at ih ⊢
    simp only [List.map_cons, List.flatten_cons, List.length_append, List.length_cons]
    have h9 : (putUint32LE c.length).length = 4 := putUint32LE_length _
    omega

theorem readLoop_succ (f : Nat) (s : List Nat) (plen totalRead : Nat) (acc : List Nat) :
    readLoop (f + 1) s plen totalRead acc =
      if totalRead < plen then
        match readFull s 4 with
        | .error e =>
          if e = .eofErr ∧ 0 < totalRead then (acc, s, [], false, none)
          else (acc, s, [], false, some e)
        | .ok (sizeBuf, s1) =>
          let compressedSize := getUint32LE (byteAt sizeBuf 0) (byteAt sizeBuf 1)
            (byteAt sizeBuf 2) (byteAt sizeBuf 3)
          if compressedSize = 0 then (acc, s1, [], true, none)
          else
            let uncompressed := compressedSize &&& 0x80000000 ≠ 0
            let csize := if uncompressed then compressedSize % 0x80000000 else compressedSize
            if maxBlockSize < csize then (acc, s1, [], false, some .blockTooLarge)
            else
              match readFull s1 csize with
              | .error e => (acc, s1, [], false, some e)
              | .ok (payload, s2) =>
                match (if uncompressed then .ok payload
                       else match decompressBlock payload defaultBlockSize with
                            | (_, some e) => .error e
                            | (d, none) => .ok d : Except Err (List Nat)) with
                | .error e => (acc, s2, [], false, some e)
                | .ok data =>
                  let remaining := plen - totalRead
                  let toCopy := if remaining < data.length then remaining else data.length
                  let acc1 := acc ++ data.take toCopy
                  if toCopy < data.length then (acc1, s2, data.drop toCopy, false, none)
                  else readLoop f s2 plen (totalRead + toCopy) acc1
      else (acc, s, [], false, none) := rfl

end LZ4

namespace LZ4

theorem readLoop_endmark (f t : Nat) (acc : List Nat) (ht : t < 65536) :
    readLoop (f + 1) endMarkBytes 65536 t acc = (acc, [], [], true, none) := by
  rw [readLoop_succ, if_pos ht]
  rw [show readFull endMarkBytes 4 = .ok ([0, 0, 0, 0], []) from rfl]
  simp only []
  rw [if_pos (show getUint32LE (byteAt [0, 0, 0, 0] 0) (byteAt [0, 0, 0, 0] 1)
    (byteAt [0, 0, 0, 0] 2) (byteAt [0, 0, 0, 0] 3) = 0 from rfl)]

end LZ4

namespace LZ4

theorem readLoop_spec (cs : List (List Nat)) :
    ∀ (fuel t : Nat) (acc : List Nat), GoodBlocks cs → t ≤ 65536 →
    cs.length + 1 ≤ fuel →
    ∃ S2 L2 eof2 cs2,
      readLoop fuel (recordsBytes cs ++ endMarkBytes) 65536 t acc =
        (acc ++ (cs.map decodeOf).flatten.take (65536 - t), S2, L2, eof2, none) ∧
      GoodBlocks cs2 ∧
      (eof2 = false → S2 = recordsBytes cs2 ++ endMarkBytes) ∧
      L2 ++ (cs2.map decodeOf).flatten = (cs.map decodeOf).flatten.drop (65536 - t) ∧
      L2.length < 65536 ∧
      cs2.length ≤ cs.length ∧
      (eof2 = false → t < 65536 → cs2.length < cs.length) ∧
      (eof2 = true ↔ (cs.map decodeOf).flatten.length < 65536 - t) := by
  induction cs with
  | nil =>
    intro fuel t acc hgb ht hfuel
    obtain ⟨f, rfl⟩ : ∃ f, fuel = f + 1 := ⟨fuel - 1, by omega⟩
    by_cases htlt : t < 65536
    · refine ⟨[], [], true, [], ?_, ?_, ?_, ?_, ?_, ?_, ?_, ?_⟩
      · have hrb : recordsBytes ([] : List (List Nat)) = [] := rfl
        rw [hrb, List.nil_append, readLoop_endmark f t acc htlt]
        simp
      · intro b hb; simp at hb
      · intro h; exact absurd h (by simp)
      · simp
      · norm_num
      · simp
      · intro h; exact absurd h (by simp)
      · simp; omega
    · refine ⟨recordsBytes [] ++ endMarkBytes, [], false, [], ?_, ?_, ?_, ?_, ?_, ?_, ?_, ?_⟩
      · rw [readLoop_succ, if_neg htlt]
        simp [show 65536 - t = 0 by omega]
      · intro b hb; simp at hb
      · intro _; rfl
      · simp [show 65536 - t = 0 by omega]
      · norm_num
      · simp
      · intro _ h2; omega
      · constructor
        · intro h; exact absurd h (by simp)
        · intro h
          rw [show 65536 - t = 0 from by omega] at h
          exact absurd h (by omega)
  | cons c cs' ih =>
    intro fuel t acc hgb ht hfuel
    obtain ⟨f, rfl⟩ : ∃ f, fuel = f + 1 := ⟨fuel - 1, by omega⟩
    have hgbc := hgb c (List.mem_cons_self c cs')
    have hgb' : GoodBlocks cs' := fun b hb => hgb b (List.mem_cons_of_mem c hb)
    have hclen := hgbc.1
    have hcmax := hgbc.2.1
    have hc31 := hgbc.2.2.1
    have hdnone := hgbc.2.2.2.1
    have hdpos := hgbc.2.2.2.2.1
    have hdle := hgbc.2.2.2.2.2
    by_cases htlt : t < 65536
    · have hc32 : c.length < 2 ^ 32 := lt_trans hc31 (by norm_num)
      have hflag : c.length &&& 0x80000000 = 0 := and_high_bit_zero _ hc31
      have hu : ¬ (c.length &&& 0x80000000 ≠ 0) := by simp [hflag]
      have hdb : decompressBlock c defaultBlockSize = (decodeOf c, none) := by
        have h9 := hdnone
        unfold decodeOf
        rcases hx : decompressBlock c defaultBlockSize with ⟨d, e⟩
        rw [hx] at h9
        simp at h9
        simp [h9]
      have hstream : recordsBytes (c :: cs') ++ endMarkBytes
          = putUint32LE c.length ++ (c ++ (recordsBytes cs' ++ endMarkBytes)) := by
        unfold recordsBytes
        simp [List.map_cons, List.flatten_cons, List.append_assoc]
      have hfuel' : cs'.length + 1 ≤ f := by
        simp only [List.length_cons] at hfuel; omega
      have hD : ((c :: cs').map decodeOf).flatten
          = decodeOf c ++ (cs'.map decodeOf).flatten := by
        simp [List.map_cons]
      by_cases hlt : 65536 - t < (decodeOf c).length
      · have hiterB : readLoop (f + 1) (recordsBytes (c :: cs') ++ endMarkBytes) 65536 t acc =
            (acc ++ (decodeOf c).take (65536 - t), recordsBytes cs' ++ endMarkBytes,
             (decodeOf c).drop (65536 - t), false, none) := by
          rw [hstream, readLoop_succ, if_pos htlt,
            readFull_exact (putUint32LE c.length) _ 4 (putUint32LE_length _)]
          simp only []
          rw [putUint32LE_getUint32LE c.length hc32]
          rw [if_neg (by omega : ¬ c.length = 0)]
          simp only [if_neg hu]
          rw [if_neg (Nat.not_lt.mpr hcmax)]
          rw [readFull_exact c (recordsBytes cs' ++ endMarkBytes) c.length rfl]
          simp only []
          rw [hdb]
          simp only []
          simp only [if_pos hlt]
        have htakeB : (decodeOf c ++ (cs'.map decodeOf).flatten).take (65536 - t)
            = (decodeOf c).take (65536 - t) := by
          rw [List.take_append_eq_append_take,
            show 65536 - t - (decodeOf c).length = 0 from by omega]
          simp
        have hdropB : (decodeOf c ++ (cs'.map decodeOf).flatten).drop (65536 - t)
            = (decodeOf c).drop (65536 - t) ++ (cs'.map decodeOf).flatten := by
          rw [List.drop_append_eq_append_drop,
            show 65536 - t - (decodeOf c).length = 0 from by omega]
          simp
        refine ⟨recordsBytes cs' ++ endMarkBytes, (decodeOf c).drop (65536 - t), false, cs',
          ?_, hgb', fun _ => rfl, ?_, ?_, ?_, ?_, ?_⟩
        · rw [hD, htakeB]; exact hiterB
        · rw [hD, hdropB]
        · simp only [List.length_drop]; omega
        · simp only [List.length_cons]; omega
        · intro _ _; simp only [List.length_cons]; omega
        · constructor
          · intro h; exact absurd h (by simp)
          · intro h; rw [hD, List.length_append] at h; omega
      · have hge : (decodeOf c).length ≤ 65536 - t := by omega
        have hiterA : readLoop (f + 1) (recordsBytes (c :: cs') ++ endMarkBytes) 65536 t acc =
            readLoop f (recordsBytes cs' ++ endMarkBytes) 65536
              (t + (decodeOf c).length) (acc ++ decodeOf c) := by
          rw [hstream, readLoop_succ, if_pos htlt,
            readFull_exact (putUint32LE c.length) _ 4 (putUint32LE_length _)]
          simp only []
          rw [putUint32LE_getUint32LE c.length hc32]
          rw [if_neg (by omega : ¬ c.length = 0)]
          simp only [if_neg hu]
          rw [if_neg (Nat.not_lt.mpr hcmax)]
          rw [readFull_exact c (recordsBytes cs' ++ endMarkBytes) c.length rfl]
          simp only []
          rw [hdb]
          simp only []
          simp only [if_neg hlt]
          rw [if_neg (Nat.lt_irrefl _), List.take_length]
        obtain ⟨S2, L2, eof2, cs2, heq, hgb2, hS2, hL2, hL2len, hcs2, hstrict, hiff⟩ :=
          ih f (t + (decodeOf c).length) (acc ++ decodeOf c) hgb' (by omega) hfuel'
        have htake : (decodeOf c ++ (cs'.map decodeOf).flatten).take (65536 - t)
            = decodeOf c ++
              (cs'.map decodeOf).flatten.take (65536 - (t + (decodeOf c).length)) := by
          rw [List.take_append_eq_append_take,
            List.take_of_length_le (show (decodeOf c).length ≤ 65536 - t from hge),
            show 65536 - t - (decodeOf c).length = 65536 - (t + (decodeOf c).length)
              from by omega]
        have hdrop : (decodeOf c ++ (cs'.map decodeOf).flatten).drop (65536 - t)
            = (cs'.map decodeOf).flatten.drop (65536 - (t + (decodeOf c).length)) := by
          rw [List.drop_append_eq_append_drop,
            List.drop_eq_nil_of_le (show (decodeOf c).length ≤ 65536 - t from hge),
            List.nil_append,
            show 65536 - t - (decodeOf c).length = 65536 - (t + (decodeOf c).length)
              from by omega]
        refine ⟨S2, L2, eof2, cs2, ?_, hgb2, hS2, ?_, hL2len, ?_, ?_, ?_⟩
        · rw [hD, htake, ← List.append_assoc, hiterA, heq]
        · rw [hD, hdrop]; exact hL2
        · simp only [List.length_cons]; omega
        · intro _ _; simp only [List.length_cons]; omega
        · rw [hD, List.length_append]
          exact hiff.trans (by omega)
    · refine ⟨recordsBytes (c :: cs') ++ endMarkBytes, [], false, c :: cs',
        ?_, hgb, fun _ => rfl, ?_, ?_, ?_, ?_, ?_⟩
      · rw [readLoop_succ, if_neg htlt]
        simp [show 65536 - t = 0 by omega]
      · simp [show 65536 - t = 0 by omega]
      · norm_num
      · simp
      · intro _ h2; omega
      · constructor
        · intro h; exact absurd h (by simp)
        · intro h
          rw [show 65536 - t = 0 from by omega] at h
          exact absurd h (by omega)

end LZ4

namespace LZ4

theorem readerRead_eof (st : ReaderState) (h : st.eofSeen = true) (plen : Nat) :
    readerRead st plen = (0, [], st, some .eofErr) := by
  unfold readerRead
  rw [if_pos h]

theorem readerRead_spec (l : List Nat) (cs : List (List Nat))
    (hlo : l.length < 65536) (hgb : GoodBlocks cs) :
    ∃ S2 L2 eof2 cs2,
      readerRead ⟨recordsBytes cs ++ endMarkBytes, l, false, true⟩ 65536 =
        (((l ++ (cs.map decodeOf).flatten).take 65536).length,
         (l ++ (cs.map decodeOf).flatten).take 65536, ⟨S2, L2, eof2, true⟩, none) ∧
      ((l ++ (cs.map decodeOf).flatten).length < 65536 → eof2 = true) ∧
      (65536 ≤ (l ++ (cs.map decodeOf).flatten).length →
        eof2 = false ∧ S2 = recordsBytes cs2 ++ endMarkBytes ∧ L2.length < 65536 ∧
        GoodBlocks cs2 ∧
        L2 ++ (cs2.map decodeOf).flatten = (l ++ (cs.map decodeOf).flatten).drop 65536 ∧
        cs2.length < cs.length) := by
  have hrr0 : readerRead ⟨recordsBytes cs ++ endMarkBytes, l, false, true⟩ 65536 =
      match readLoop ((recordsBytes cs ++ endMarkBytes).length + 1)
          (recordsBytes cs ++ endMarkBytes) 65536 l.length l with
      | (acc, s2, leftover2, eof2, err) => (acc.length, acc, ⟨s2, leftover2, eof2, true⟩, err) := by
    unfold readerRead
    simp only []
    rw [if_neg Bool.false_ne_true]
    rw [if_pos trivial]
    simp only []
    rw [if_neg (Nat.not_lt.mpr (Nat.le_of_lt hlo))]
    rw [if_neg (by omega : ¬ 65536 ≤ l.length)]
    rw [List.take_length]
  obtain ⟨S2, L2, eof2, cs2, heq, hgb2, hS2, hL2, hL2len, hcs2le, hstrict, hiff⟩ :=
    readLoop_spec cs ((recordsBytes cs ++ endMarkBytes).length + 1) l.length l hgb
      (by omega)
      (by have := recordsBytes_length_ge cs; simp only [List.length_append]; omega)
  rw [heq] at hrr0
  simp only [] at hrr0
  have hacc : (l ++ (cs.map decodeOf).flatten).take 65536 =
      l ++ (cs.map decodeOf).flatten.take (65536 - l.length) := by
    rw [List.take_append_eq_append_take,
      List.take_of_length_le (Nat.le_of_lt hlo)]
  refine ⟨S2, L2, eof2, cs2, ?_, ?_, ?_⟩
  · rw [hacc]; exact hrr0
  · intro hslen
    exact hiff.mpr (by rw [List.length_append] at hslen; omega)
  · intro hslen
    have heof2 : eof2 = false := by
      cases eof2
      · rfl
      · exfalso
        have h9 := hiff.mp rfl
        rw [List.length_append] at hslen
        omega
    refine ⟨heof2, hS2 heof2, hL2len, hgb2, ?_, hstrict heof2 hlo⟩
    rw [List.drop_append_eq_append_drop,
      List.drop_eq_nil_of_le (Nat.le_of_lt hlo), List.nil_append]
    exact hL2

end LZ4

namespace LZ4

theorem decompressStreamLoop_succ (f : Nat) (st : ReaderState) (acc : List Nat) :
    decompressStreamLoop (f + 1) st acc =
      match readerRead st 65536 with
      | (_, data, st1, err) =>
        match err with
        | some e => if e = .eofErr then .ok acc else .error e
        | none => decompressStreamLoop f st1 (acc ++ data) := rfl

theorem decompressStreamLoop_spec (n : Nat) :
    ∀ (cs : List (List Nat)), cs.length ≤ n →
    ∀ (l acc : List Nat) (fuel : Nat),
    l.length < 65536 → GoodBlocks cs → cs.length + 2 ≤ fuel →
    decompressStreamLoop fuel ⟨recordsBytes cs ++ endMarkBytes, l, false, true⟩ acc =
      .ok (acc ++ l ++ (cs.map decodeOf).flatten) := by
  induction n with
  | zero =>
    intro cs hcs l acc fuel hl hgb hfuel
    have hcse : cs = [] := List.length_eq_zero.mp (by omega)
    subst hcse
    obtain ⟨f, rfl⟩ : ∃ f, fuel = f + 1 := ⟨fuel - 1, by omega⟩
    obtain ⟨S2, L2, eof2, cs2, hrr, hsmall, hbig⟩ := readerRead_spec l [] hl hgb
    rw [decompressStreamLoop_succ, hrr]
    simp only []
    have heof2 := hsmall (by simp [recordsBytes]; omega)
    subst heof2
    obtain ⟨f2, rfl⟩ : ∃ f2, f = f2 + 1 := ⟨f - 1, by omega⟩
    rw [decompressStreamLoop_succ, readerRead_eof ⟨S2, L2, true, true⟩ rfl]
    simp only []
    rw [if_pos trivial]
    have htk : List.take 65536 (l ++ ((List.map decodeOf ([] : List (List Nat))).flatten)) =
        l ++ (List.map decodeOf ([] : List (List Nat))).flatten :=
      List.take_of_length_le (by simp; omega)
    rw [htk, ← List.append_assoc]
  | succ n ihn =>
    intro cs hcs l acc fuel hl hgb hfuel
    obtain ⟨f, rfl⟩ : ∃ f, fuel = f + 1 := ⟨fuel - 1, by omega⟩
    obtain ⟨S2, L2, eof2, cs2, hrr, hsmall, hbig⟩ := readerRead_spec l cs hl hgb
    rw [decompressStreamLoop_succ, hrr]
    simp only []
    by_cases hS : (l ++ (cs.map decodeOf).flatten).length < 65536
    · have heof2 := hsmall hS
      subst heof2
      obtain ⟨f2, rfl⟩ : ∃ f2, f = f2 + 1 := ⟨f - 1, by omega⟩
      rw [decompressStreamLoop_succ, readerRead_eof ⟨S2, L2, true, true⟩ rfl]
      simp only []
      rw [if_pos trivial]
      rw [List.take_of_length_le (Nat.le_of_lt hS), ← List.append_assoc]
    · obtain ⟨heof2, hS2eq, hL2len, hgb2, hrest, hlt⟩ := hbig (by omega)
      subst heof2
      rw [hS2eq]
      rw [ihn cs2 (by omega) L2 (acc ++ (l ++ (cs.map decodeOf).flatten).take 65536) f
        hL2len hgb2 (by omega)]
      have halg : acc ++ (l ++ (cs.map decodeOf).flatten).take 65536 ++ L2 ++
          (cs2.map decodeOf).flatten = acc ++ l ++ (cs.map decodeOf).flatten := by
        simp only [List.append_assoc]
        rw [hrest, List.take_append_drop]
      rw [halg]

end LZ4

namespace LZ4

theorem readerRead_skipHeader (rest l : List Nat) (plen : Nat) :
    readerRead ⟨frameHeaderBytes ++ rest, l, false, false⟩ plen =
      readerRead ⟨rest, l, false, true⟩ plen := by
  unfold readerRead
  simp only []
  rw [readFrameHeader_good rest]
  simp only []
  rw [headerChecks_good]
  simp only [if_neg Bool.false_ne_true, if_pos trivial]

theorem decompressStreamLoop_skipHeader (fuel : Nat) (rest l acc : List Nat) :
    decompressStreamLoop fuel ⟨frameHeaderBytes ++ rest, l, false, false⟩ acc =
      decompressStreamLoop fuel ⟨rest, l, false, true⟩ acc := by
  cases fuel with
  | zero => rfl
  | succ f => rw [decompressStreamLoop_succ, decompressStreamLoop_succ, readerRead_skipHeader]

theorem decompressStream_good (cs : List (List Nat)) (hgb : GoodBlocks cs) :
    decompressStream (frameHeaderBytes ++ (recordsBytes cs ++ endMarkBytes)) =
      .ok ((cs.map decodeOf).flatten) := by
  unfold decompressStream
  rw [decompressStreamLoop_skipHeader]
  rw [decompressStreamLoop_spec cs.length cs (Nat.le_refl _) [] []
    ((frameHeaderBytes ++ (recordsBytes cs ++ endMarkBytes)).length + 3)
    (by norm_num) hgb
    (by have := recordsBytes_length_ge cs; simp only [List.length_append]; omega)]
  simp

end LZ4

namespace LZ4

theorem map_decodeOf_compOf (cs : List (List Nat)) (h : ∀ c ∈ cs, c.length ≤ maxBlockSize) :
    (cs.map compOf).map decodeOf = cs := by
  induction cs with
  | nil => rfl
  | cons c rest ih =>
    simp only [List.map_cons]
    rw [decodeOf_compOf c (h c (List.mem_cons_self c rest)),
      ih (fun b hb => h b (List.mem_cons_of_mem c hb))]

theorem recordsOf_flatten (cs : List (List Nat)) :
    (cs.map recordOf).flatten = recordsBytes (cs.map compOf) := by
  unfold recordsBytes
  rw [List.map_map]
  rfl

theorem goodBlocks_compOf (cs : List (List Nat))
    (h : ∀ c ∈ cs, 0 < c.length ∧ c.length ≤ 65536) :
    GoodBlocks (cs.map compOf) := by
  intro b hb
  rw [List.mem_map] at hb
  obtain ⟨c, hc, rfl⟩ := hb
  obtain ⟨h1, h2⟩ := h c hc
  have hmax : c.length ≤ maxBlockSize := by
    have h8 : (65536 : Nat) ≤ maxBlockSize := by norm_num [maxBlockSize]
    omega
  have hclen := compOf_length_le c
  have hdiv : c.length / 255 ≤ c.length := Nat.div_le_self _ _
  have h8 : (65536 : Nat) + 65536 + 2 ≤ maxBlockSize := by norm_num [maxBlockSize]
  have h31 : maxBlockSize < 2 ^ 31 := by norm_num [maxBlockSize]
  refine ⟨compOf_pos c h1 hmax, by omega, by omega, ?_, ?_, ?_⟩
  · rw [blockRoundTrip c hmax]
  · rw [decodeOf_compOf c hmax]; exact h1
  · rw [decodeOf_compOf c hmax]; exact h2

/-- C1: compressing any byte sequence of at most 16 MiB through the
writer (`CompressStream`, i.e. `Writer.Write` on each 64 KiB read
followed by `Close`) and feeding the resulting frame to the reader
(`DecompressStream`, i.e. repeated `Reader.Read`) returns exactly the
original sequence; this covers the empty input, inputs shorter than 4
bytes, inputs ending exactly on a block boundary and inputs straddling
several block boundaries. -/
theorem streamRoundTrip (x : List Nat) (hx : x.length ≤ 16 * 2 ^ 20) :
    (compressStream x).bind decompressStream = .ok x := by
  obtain ⟨hall, hflat⟩ := chunksOf_props 65536 (by norm_num) (x.length + 1) x (by omega)
  have hmax : ∀ c ∈ chunksOf (x.length + 1) 65536 x, c.length ≤ maxBlockSize := by
    intro c hc
    have h9 := (hall c hc).2
    have h8 : (65536 : Nat) ≤ maxBlockSize := by norm_num [maxBlockSize]
    omega
  have hgood := goodBlocks_compOf (chunksOf (x.length + 1) 65536 x) hall
  have hdec := decompressStream_good ((chunksOf (x.length + 1) 65536 x).map compOf) hgood
  rw [compressStream_spec x, recordsOf_flatten]
  show decompressStream (frameHeaderBytes ++
    (recordsBytes ((chunksOf (x.length + 1) 65536 x).map compOf) ++ endMarkBytes)) = .ok x
  rw [hdec, map_decodeOf_compOf _ hmax, hflat]

theorem streamRoundTrip_witness :
    ([1, 2, 3] : List Nat).length ≤ 16 * 2 ^ 20 ∧
      (compressStream ([1, 2, 3] : List Nat)).bind decompressStream = .ok [1, 2, 3] :=
  ⟨by norm_num, streamRoundTrip [1, 2, 3] (by norm_num)⟩

end LZ4

namespace LZ4

theorem copyOverlap_offset_one (b : Nat) : ∀ (n : Nat) (out : List Nat),
    copyOverlap (out ++ [b]) out.length n = out ++ [b] ++ List.replicate n b := by
  intro n
  induction n with
  | zero => intro out; simp [copyOverlap]
  | succ n ih =>
    intro out
    show copyOverlap ((out ++ [b]) ++ [byteAt (out ++ [b]) out.length]) (out.length + 1) n = _
    have hb : byteAt (out ++ [b]) out.length = b := by
      simp [byteAt, List.getD]
    rw [hb]
    have h2 : out.length + 1 = (out ++ [b]).length := by simp
    rw [h2, ih (out ++ [b])]
    simp [List.replicate_succ]

/-- C2: the spec requires every stream whose FLG byte has the
content-checksum bit set to be rejected by the first `Reader.Read`
with an unsupported-frame error.  `Reader.Read` checks version,
blocks-independent, blocks-checksum, content-size and dict-ID, but
never `ContentChecksumFlag`, so such a stream is accepted: the header
`04 22 4D 18 64 70 00` (FLG `0x64` = version 1, blocks-independent and
content-checksum set) parses with `contentChecksumFlag = true`, the
read-side checks find nothing wrong, and the first read of that header
followed by an end-mark succeeds with no error. -/
theorem contentChecksumFlagNotChecked :
    (∃ rest, readFrameHeader ([4, 34, 77, 24, 0x64, 0x70, 0] ++ endMarkBytes) =
        .ok (⟨0x184D2204, 1, true, false, false, true, false, 0, 0, 4 <<< 20⟩, rest) ∧
      headerChecks ⟨0x184D2204, 1, true, false, false, true, false, 0, 0, 4 <<< 20⟩ = none) ∧
    readerRead ⟨[4, 34, 77, 24, 0x64, 0x70, 0] ++ endMarkBytes, [], false, false⟩ 65536 =
      (0, [], ⟨[], [], true, true⟩, none) :=
  ⟨⟨endMarkBytes, by rfl, by rfl⟩, by rfl⟩

/-- C4 (corrected): the claim predicts that compressing 256 zero bytes
yields a payload starting with the token `0xF0` (literal-length 15,
extended).  In fact the scan finds a match already at `srcPos = 1`, so
the block compresses to `1F 00 01 00 EC`: token `0x1F` = one literal
and extended match length, literal byte `00`, offset `0001`,
match-length continuation `EC` (15 + 236 + 4 = 255); the first byte is
`0x1F`, not `0xF0`.  The round-trip part of the claim does hold: the
payload decompresses back to the 256 zeros. -/
theorem zeros256Block :
    compressBlock (List.replicate 256 0) (256 + 256 / 255 + 16) =
      .ok [0x1F, 0x00, 0x01, 0x00, 0xEC] ∧
    (0x1F : Nat) ≠ 0xF0 ∧
    decompressBlock [0x1F, 0x00, 0x01, 0x00, 0xEC] defaultBlockSize =
      (List.replicate 256 0, none) :=
  ⟨by rfl, by decide, by rfl⟩

/-- C6: decoding the payload `1F 61 01 00 F0` — one literal `a` (97)
followed by a match with offset 1 and match length 15 + 240 + 4 = 259 —
produces exactly 260 bytes `a`.  The general fact behind it: with
offset 1 the decoder takes the byte-by-byte path (`copyOverlap`), and
replicating from the byte just written is run-length expansion. -/
theorem overlapRunLength :
    decompressBlock [0x1F, 97, 0x01, 0x00, 0xF0] defaultBlockSize =
      (List.replicate 260 97, none) ∧
    ∀ (out : List Nat) (b n : Nat),
      copyOverlap (out ++ [b]) out.length n = out ++ [b] ++ List.replicate n b :=
  ⟨by rfl, fun out b n => copyOverlap_offset_one b n out⟩

/-- C8: the 7 bytes `WriteFrameHeader` emits are exactly
`04 22 4D 18 60 70 73`: little-endian magic `0x184D2204`, FLG `0x60`,
BD `0x70`, and the checksum byte `(xxh32 0 [60 70] >>> 8) &&& 0xFF`,
which evaluates to `0x73`. -/
theorem frameHeaderValue :
    frameHeaderBytes = [0x04, 0x22, 0x4D, 0x18, 0x60, 0x70, 0x73] ∧
    getHeaderChecksum [flgByte, bdType] = (xxh32 0 [0x60, 0x70] >>> 8) &&& 0xFF ∧
    getHeaderChecksum [flgByte, bdType] = 0x73 :=
  ⟨by rfl, by rfl, by rfl⟩

/-- C9: compressing the empty input gives exactly the 11-byte stream
header-plus-end-mark (the header is written by `Close` even though no
`Write` delivered data), and reading that stream delivers 0 bytes with
no error (setting the end-mark flag) and then reports end of stream. -/
theorem emptyInputStream :
    compressStream [] = .ok (frameHeaderBytes ++ endMarkBytes) ∧
    (frameHeaderBytes ++ endMarkBytes).length = 11 ∧
    readerRead ⟨frameHeaderBytes ++ endMarkBytes, [], false, false⟩ 65536 =
      (0, [], ⟨[], [], true, true⟩, none) ∧
    readerRead ⟨[], [], true, true⟩ 65536 = (0, [], ⟨[], [], true, true⟩, some .eofErr) :=
  ⟨by rfl, by rfl, by rfl, by rfl⟩

end LZ4

namespace LZ4

theorem chunksOf_length_mul (n : Nat) (hn : 0 < n) :
    ∀ (k : Nat) (l : List Nat) (fuel : Nat), l.length = k * n → l.length < fuel →
      (chunksOf fuel n l).length = k := by
  intro k
  induction k with
  | zero =>
    intro l fuel hl hf
    obtain ⟨f, rfl⟩ : ∃ f, fuel = f + 1 := ⟨fuel - 1, by omega⟩
    rw [chunksOf_succ, if_neg (by omega)]
    rfl
  | succ k ih =>
    intro l fuel hl hf
    obtain ⟨f, rfl⟩ : ∃ f, fuel = f + 1 := ⟨fuel - 1, by omega⟩
    have hpos : 0 < l.length := by
      rw [hl]; exact Nat.mul_pos (Nat.succ_pos k) hn
    rw [chunksOf_succ, if_pos hpos]
    simp only [List.length_cons]
    rw [ih (l.drop n) f
      (by simp only [List.length_drop]; rw [hl, Nat.succ_mul]; omega)
      (by simp only [List.length_drop]; omega)]

/-- C3 (corrected): the claim says a 10 MiB input is emitted as three
4 + 4 + 2 MiB block records because the writer accumulates across
`Write` calls.  `Writer.Write` does not accumulate: it chunks each
call's payload independently, and `CompressStream` feeds it 64 KiB
reads, so a 10 MiB input becomes 160 records of 64 KiB each (each
record a 4-byte length word plus the compressed 64 KiB chunk), not
three. -/
theorem tenMiBRecordCount (x : List Nat) (hx : x.length = 10 * 2 ^ 20) :
    compressStream x =
      .ok (frameHeaderBytes ++
        (((chunksOf (x.length + 1) 65536 x).map recordOf).flatten ++ endMarkBytes)) ∧
    (chunksOf (x.length + 1) 65536 x).length = 160 := by
  refine ⟨compressStream_spec x, ?_⟩
  apply chunksOf_length_mul 65536 (by norm_num) 160 x (x.length + 1) ?_ (by omega)
  rw [hx]; norm_num

theorem tenMiBRecordCount_witness :
    (List.replicate (10 * 2 ^ 20) (0 : Nat)).length = 10 * 2 ^ 20 ∧
    (compressStream (List.replicate (10 * 2 ^ 20) (0 : Nat)) =
      .ok (frameHeaderBytes ++
        (((chunksOf ((List.replicate (10 * 2 ^ 20) (0 : Nat)).length + 1) 65536
            (List.replicate (10 * 2 ^ 20) (0 : Nat))).map recordOf).flatten ++
          endMarkBytes)) ∧
     (chunksOf ((List.replicate (10 * 2 ^ 20) (0 : Nat)).length + 1) 65536
        (List.replicate (10 * 2 ^ 20) (0 : Nat))).length = 160) :=
  ⟨by rw [List.length_replicate], tenMiBRecordCount _ (by rw [List.length_replicate])⟩

/-- The same two bytes written as one `Write` call or as two produce
different streams: the writer does not accumulate input across calls. -/
theorem writeChunkingMatters :
    compressStreamLoop [[1], [2]] false ≠ compressStreamLoop [[1, 2]] false := by
  intro h
  have h9 : (fun r => match r with
      | Except.ok (l : List Nat) => l.length
      | Except.error _ => 0) (compressStreamLoop [[1], [2]] false) = 23 := by rfl
  have h10 : (fun r => match r with
      | Except.ok (l : List Nat) => l.length
      | Except.error _ => 0) (compressStreamLoop [[1, 2]] false) = 18 := by rfl
  rw [h] at h9
  rw [h10] at h9
  exact absurd h9 (by decide)

/-- C5 (corrected): the claim says every store of `compressBlock` is
bounds-checked, so it either succeeds or reports the destination too
small.  The extension-byte and offset stores after the token are not
guarded (a Go index-out-of-range panic is reachable, see the
counterexample); but with a destination of at least
`|S| + |S|/255 + 2` bytes — in particular the writer's worst case
`|S| + |S|/255 + 16` — the function always returns successfully with
the encoded block, which fits the destination. -/
theorem compressBlock_safe (src : List Nat) (dstLen : Nat)
    (h : src.length + src.length / 255 + 2 ≤ dstLen) :
    ∃ out, compressBlock src dstLen = .ok out ∧ out.length ≤ dstLen :=
  ⟨compOf src, compressBlock_compOf src dstLen h,
    le_trans (compOf_length_le src) h⟩

theorem compressBlock_safe_witness :
    ([1, 2, 3] : List Nat).length + ([1, 2, 3] : List Nat).length / 255 + 2 ≤ 5 ∧
    ∃ out, compressBlock [1, 2, 3] 5 = .ok out ∧ out.length ≤ 5 :=
  ⟨by decide, compressBlock_safe [1, 2, 3] 5 (by decide)⟩

/-- A 19-byte source whose final 4 bytes match its first 4 makes
`compressBlock` store a literal-length extension byte one past the
destination guard: with the 18-byte destination the Go code would
panic (index out of range), modelled as `Err.indexOutOfRange`, rather
than report the destination too small. -/
theorem compressBlock_panics :
    compressBlock (List.range 15 ++ [0, 1, 2, 3]) 18 = .error .indexOutOfRange := by
  rfl

/-- C10: the scan-loop table invariant and its consequence.  The table
starts all-sentinel; one scan step from any in-range position keeps
every non-sentinel entry strictly below the (incremented) source
position; and consequently every sequence the scan emits carries an
offset in `1 .. 65535` that reaches back only within the block
(`offset ≤ litPos + litLen`, the match start), with the match contained
in the block. -/
theorem scanTableInvariant (src : List Nat) (h32 : src.length < 2 ^ 32) :
    (∀ hh, emptyHashTable hh = 0xFFFFFFFF) ∧
    (∀ (srcPos : Nat) (table : Nat → Nat), srcPos ≤ src.length →
      (∀ hh, table hh ≠ 0xFFFFFFFF → table hh < srcPos) →
      ∀ hh, (stepMatch src srcPos table).1 hh ≠ 0xFFFFFFFF →
        (stepMatch src srcPos table).1 hh < srcPos + 1) ∧
    (∀ s ∈ (seqLoop (src.length + 1) src 0 0 emptyHashTable).1,
      1 ≤ s.offset ∧ s.offset ≤ 65535 ∧ s.offset ≤ s.litPos + s.litLen ∧
      s.litPos + s.litLen + s.matchLen ≤ src.length) := by
  refine ⟨fun hh => rfl, fun srcPos table hsp ht => stepMatch_table h32 hsp ht, ?_⟩
  have hcov := seqLoop_covers src (src.length + 1) 0 0 emptyHashTable h32 (Nat.le_refl 0)
    (Nat.zero_le _) (by intro hh hv; exact absurd rfl hv) (by omega)
  intro s hs
  obtain ⟨f1, f2, f3, f4, f5⟩ := Covers.mem_facts hcov s hs
  have hmo : maxOffset = 65535 := rfl
  exact ⟨f1, by omega, f3, f5⟩

theorem scanTableInvariant_witness :
    ([0, 0, 0, 0, 0, 0, 0, 0] : List Nat).length < 2 ^ 32 ∧
    ((∀ hh, emptyHashTable hh = 0xFFFFFFFF) ∧
     (∀ (srcPos : Nat) (table : Nat → Nat),
        srcPos ≤ ([0, 0, 0, 0, 0, 0, 0, 0] : List Nat).length →
        (∀ hh, table hh ≠ 0xFFFFFFFF → table hh < srcPos) →
        ∀ hh, (stepMatch [0, 0, 0, 0, 0, 0, 0, 0] srcPos table).1 hh ≠ 0xFFFFFFFF →
          (stepMatch [0, 0, 0, 0, 0, 0, 0, 0] srcPos table).1 hh < srcPos + 1) ∧
     (∀ s ∈ (seqLoop (([0, 0, 0, 0, 0, 0, 0, 0] : List Nat).length + 1)
          [0, 0, 0, 0, 0, 0, 0, 0] 0 0 emptyHashTable).1,
        1 ≤ s.offset ∧ s.offset ≤ 65535 ∧ s.offset ≤ s.litPos + s.litLen ∧
        s.litPos + s.litLen + s.matchLen ≤ ([0, 0, 0, 0, 0, 0, 0, 0] : List Nat).length)) :=
  ⟨by decide, scanTableInvariant [0, 0, 0, 0, 0, 0, 0, 0] (by decide)⟩

end LZ4

namespace LZ4

/-- Transliteration of C7's failure condition over the decoder's own
parse: scan the sequences exactly as `decLoop` does and report `some d`
— `d` being the output decoded up to and including the current
sequence's literals — at the first 2-byte offset that is `0` or exceeds
the bytes decoded so far; report `none` when the scan ends or stops for
any other reason.  Mirrors `decLoop` branch for branch. -/
def badOffsetLoop (fuel : Nat) (rem out : List Nat) (dstLen : Nat) : Option (List Nat) :=
  match fuel with
  | 0 => none
  | fuel + 1 =>
    match rem with
    | [] => none
    | token :: rest =>
      if dstLen ≤ out.length then none
      else
        match (if token >>> 4 = 15 then readExtLoop rest (token >>> 4)
               else some (token >>> 4, rest)) with
        | none => none
        | some (litLen, rest1) =>
          if rest1.length < litLen then none
          else if dstLen < out.length + litLen then none
          else
            let out1 := out ++ rest1.take litLen
            match rest1.drop litLen with
            | [] => none
            | [_] => none
            | b0 :: b1 :: rest4 =>
              let offset := getUint16LE b0 b1
              if offset = 0 ∨ out1.length < offset then some out1
              else
                match (if token &&& 0x0F = 15 then readExtLoop rest4 (token &&& 0x0F)
                       else some (token &&& 0x0F, rest4)) with
                | none => none
                | some (mlc, rest5) =>
                  let matchLen := mlc + minMatchLength
                  if dstLen < out1.length + matchLen then none
                  else if out1.length < offset then some out1
                  else
                    let refPos := out1.length - offset
                    let out2 := if matchLen ≤ offset then
                        out1 ++ (out1.drop refPos).take matchLen
                      else copyOverlap out1 refPos matchLen
                    badOffsetLoop fuel rest5 out2 dstLen

theorem badOffsetLoop_cons (f : Nat) (token : Nat) (rest out : List Nat) (dstLen : Nat) :
    badOffsetLoop (f + 1) (token :: rest) out dstLen =
      (if dstLen ≤ out.length then none
      else
        match (if token >>> 4 = 15 then readExtLoop rest (token >>> 4)
               else some (token >>> 4, rest)) with
        | none => none
        | some (litLen, rest1) =>
          if rest1.length < litLen then none
          else if dstLen < out.length + litLen then none
          else
            let out1 := out ++ rest1.take litLen
            match rest1.drop litLen with
            | [] => none
            | [_] => none
            | b0 :: b1 :: rest4 =>
              let offset := getUint16LE b0 b1
              if offset = 0 ∨ out1.length < offset then some out1
              else
                match (if token &&& 0x0F = 15 then readExtLoop rest4 (token &&& 0x0F)
                       else some (token &&& 0x0F, rest4)) with
                | none => none
                | some (mlc, rest5) =>
                  let matchLen := mlc + minMatchLength
                  if dstLen < out1.length + matchLen then none
                  else if out1.length < offset then some out1
                  else
                    let refPos := out1.length - offset
                    let out2 := if matchLen ≤ offset then
                        out1 ++ (out1.drop refPos).take matchLen
                      else copyOverlap out1 refPos matchLen
                    badOffsetLoop f rest5 out2 dstLen) := rfl

theorem decLoop_corrupted_iff :
    ∀ (fuel : Nat) (rem out : List Nat) (dstLen : Nat) (d : List Nat),
      decLoop fuel rem out dstLen = (d, some .corrupted) ↔
        badOffsetLoop fuel rem out dstLen = some d := by
  intro fuel
  induction fuel with
  | zero =>
    intro rem out dstLen d
    simp [decLoop, badOffsetLoop]
  | succ f ih =>
    intro rem out dstLen d
    rcases rem with _ | ⟨token, rest⟩
    · rw [decLoop_nil]
      simp [badOffsetLoop]
    · rw [decLoop_cons, badOffsetLoop_cons]
      by_cases h1 : dstLen ≤ out.length
      · rw [if_pos h1, if_pos h1]
        simp
      · rw [if_neg h1, if_neg h1]
        rcases hext : (if token >>> 4 = 15 then readExtLoop rest (token >>> 4)
            else some (token >>> 4, rest)) with _ | ⟨litLen, rest1⟩
        · simp
        · simp only []
          by_cases h2 : rest1.length < litLen
          · rw [if_pos h2, if_pos h2]
            simp
          · rw [if_neg h2, if_neg h2]
            by_cases h3 : dstLen < out.length + litLen
            · rw [if_pos h3, if_pos h3]
              simp
            · rw [if_neg h3, if_neg h3]
              rcases hdrop : rest1.drop litLen with _ | ⟨b0, rest2⟩
              · simp
              · rcases rest2 with _ | ⟨b1, rest4⟩
                · simp
                · simp only []
                  by_cases h4 : getUint16LE b0 b1 = 0 ∨
                      (out ++ rest1.take litLen).length < getUint16LE b0 b1
                  · rw [if_pos h4, if_pos h4]
                    constructor
                    · intro h
                      injection h with ha hb
                      rw [ha]
                    · intro h
                      injection h with ha
                      rw [ha]
                  · rw [if_neg h4, if_neg h4]
                    rcases hext2 : (if token &&& 0x0F = 15 then
                        readExtLoop rest4 (token &&& 0x0F)
                        else some (token &&& 0x0F, rest4)) with _ | ⟨mlc, rest5⟩
                    · simp
                    · simp only []
                      by_cases h5 : dstLen <
                          (out ++ rest1.take litLen).length + (mlc + minMatchLength)
                      · rw [if_pos h5, if_pos h5]
                        simp
                      · rw [if_neg h5, if_neg h5]
                        by_cases h6 : (out ++ rest1.take litLen).length < getUint16LE b0 b1
                        · rw [if_pos h6, if_pos h6]
                          constructor
                          · intro h
                            injection h with ha hb
                            rw [ha]
                          · intro h
                            injection h with ha
                            rw [ha]
                        · rw [if_neg h6, if_neg h6]
                          exact ih _ _ _ _

/-- C7 (corrected): `decompressBlock` reports the corrupted-input error
with count `d` exactly when the sequence scan reaches a 2-byte offset
that is zero or exceeds the bytes decoded so far and the output at that
moment is `d` (`badOffsetLoop` restates the claim's condition over the
same parse).  The count returned alongside the error is the decoded
length at the failing offset check, which already includes the current
sequence's literals — not, as the claim puts it, only the bytes decoded
before the failing sequence. -/
theorem decompressBlock_corrupted_iff (src : List Nat) (dstLen : Nat) (d : List Nat) :
    decompressBlock src dstLen = (d, some .corrupted) ↔
      badOffsetLoop (src.length + 1) src [] dstLen = some d :=
  decLoop_corrupted_iff (src.length + 1) src [] dstLen d

/-- The payload `10 61 00 00` — one literal `a`, then offset 0 — fails
the offset check on its first sequence, yet the returned count is 1:
the literal of the failing sequence is included, so the count is not
the bytes decoded before that sequence (which would be 0). -/
theorem corruptedCountIncludesLiterals :
    decompressBlock [0x10, 97, 0x00, 0x00] defaultBlockSize = ([97], some .corrupted) := by
  rfl

end LZ4

namespace LZ4

/-- The compressed form of 256 zero bytes starts with `0x1F`, not
with the token `0xF0` the claim predicts. -/
theorem zeros256TokenNotF0 :
    compressBlock (List.replicate 256 0) (256 + 256 / 255 + 16) =
      .ok [0x1F, 0x00, 0x01, 0x00, 0xEC] ∧ (0x1F : Nat) ≠ (0xF0 : Nat) :=
  ⟨by rfl, by decide⟩

end LZ4
